import Mathlib

/-
Verification of the timelog time-accounting engine.

The development shallowly embeds the Rust sources (src/timelog.rs,
src/timelogger.rs) into Lean.  Dates model chrono::NaiveDate as a
year/month/day record over the proleptic Gregorian calendar; durations are
integer second counts; the ledger is an association list mirroring the
HashMap<NaiveDate, TimeLogDay>.  Rust while-loops over dates are embedded
as fuel-indexed recursions whose fuel is computed from the day-number gap
of the loop bounds; for every valid (calendar-representable) input the
fuel provably suffices, which matches the termination behaviour of the
source on the chrono domain.  A Rust panic (assert! failure or HashMap
index on a missing key) is modelled by the TLOutcome.panicked constructor.
-/

set_option maxRecDepth 4000

/-- Durations are signed second counts, modelling chrono::Duration. -/
abbrev Duration := Int

/-- chrono Duration::hours. -/
def Duration.hours (h : Int) : Duration := h * 3600

/-- chrono Duration::minutes. -/
def Duration.minutes (m : Int) : Duration := m * 60

/-- chrono Duration::seconds. -/
def Duration.seconds (s : Int) : Duration := s

/-- chrono NaiveTime restricted to whole seconds (the engine truncates all
times to seconds before storing them). -/
structure NaiveTime where
  hh : Nat
  mm : Nat
  ss : Nat
deriving DecidableEq, Repr

/-- Second count since midnight. -/
def NaiveTime.toSecs (t : NaiveTime) : Int := ((t.hh * 3600 + t.mm * 60 + t.ss : Nat) : Int)

/-- chrono NaiveTime::signed_duration_since. -/
def NaiveTime.signed_duration_since (a b : NaiveTime) : Duration := a.toSecs - b.toSecs

/-- A representable chrono time of day. -/
def NaiveTime.isValid (t : NaiveTime) : Prop := t.hh < 24 ∧ t.mm < 60 ∧ t.ss < 60

instance (t : NaiveTime) : Decidable t.isValid := by
  unfold NaiveTime.isValid; infer_instance

/-- chrono Ord on NaiveTime (times compare by their second count). -/
def NaiveTime.cmp (a b : NaiveTime) : Ordering := compare a.toSecs b.toSecs

/-- chrono Weekday. -/
inductive Weekday where
  | mon | tue | wed | thu | fri | sat | sun
deriving DecidableEq, Repr

/-- chrono NaiveDate as a calendar record (proleptic Gregorian). -/
structure NaiveDate where
  year : Int
  month : Nat
  day : Nat
deriving DecidableEq, Repr

/-- Gregorian leap-year rule, as used by chrono. -/
def isLeapYear (y : Int) : Bool := (y % 4 == 0 && y % 100 != 0) || y % 400 == 0

/-- Days in a calendar month (leap-aware; chrono semantics). -/
def daysInMonth (y : Int) (m : Nat) : Nat :=
  if m = 2 then (if isLeapYear y then 29 else 28)
  else if m = 4 ∨ m = 6 ∨ m = 9 ∨ m = 11 then 30
  else 31

/-- A calendar-representable date, i.e. a value chrono::NaiveDate can hold. -/
def NaiveDate.isValid (d : NaiveDate) : Prop :=
  1 ≤ d.month ∧ d.month ≤ 12 ∧ 1 ≤ d.day ∧ d.day ≤ daysInMonth d.year d.month

instance (d : NaiveDate) : Decidable d.isValid := by
  unfold NaiveDate.isValid; infer_instance

/-- chrono NaiveDate::succ (next calendar day). -/
def NaiveDate.succ (d : NaiveDate) : NaiveDate :=
  if d.day < daysInMonth d.year d.month then ⟨d.year, d.month, d.day + 1⟩
  else if d.month < 12 then ⟨d.year, d.month + 1, 1⟩
  else ⟨d.year + 1, 1, 1⟩

/-- chrono NaiveDate::pred (previous calendar day). -/
def NaiveDate.pred (d : NaiveDate) : NaiveDate :=
  if 1 < d.day then ⟨d.year, d.month, d.day - 1⟩
  else if 1 < d.month then ⟨d.year, d.month - 1, daysInMonth d.year (d.month - 1)⟩
  else ⟨d.year - 1, 12, 31⟩

/-- Day number of a date (days since 1970-01-01, Hinnant's civil-from-days
algorithm; all divisors are positive so Int division is floor division). -/
def NaiveDate.toDays (dt : NaiveDate) : Int :=
  let y : Int := if dt.month ≤ 2 then dt.year - 1 else dt.year
  let era : Int := y / 400
  let yoe : Int := y - era * 400
  let mp : Int := if 3 ≤ dt.month then (dt.month : Int) - 3 else (dt.month : Int) + 9
  let doy : Int := (153 * mp + 2) / 5 + (dt.day : Int) - 1
  let doe : Int := yoe * 365 + yoe / 4 - yoe / 100 + doy
  era * 146097 + doe - 719468

/-- Weekday index of a date: 0 = Monday .. 6 = Sunday (1970-01-01 was a
Thursday, index 3). -/
def NaiveDate.weekdayNum (d : NaiveDate) : Int := (d.toDays + 3) % 7

/-- chrono NaiveDate::weekday. -/
def NaiveDate.weekday (d : NaiveDate) : Weekday :=
  match d.weekdayNum with
  | 0 => .mon
  | 1 => .tue
  | 2 => .wed
  | 3 => .thu
  | 4 => .fri
  | 5 => .sat
  | _ => .sun

/-- chrono Ord on NaiveDate (calendar order; lexicographic on the record,
which agrees with day-number order on valid dates): a ≤ b. -/
def NaiveDate.ble (a b : NaiveDate) : Bool :=
  a.year < b.year ||
    (a.year == b.year &&
      (a.month < b.month || (a.month == b.month && a.day ≤ b.day)))

/-- chrono Ord on NaiveDate: a < b. -/
def NaiveDate.blt (a b : NaiveDate) : Bool :=
  a.year < b.year ||
    (a.year == b.year &&
      (a.month < b.month || (a.month == b.month && a.day < b.day)))

/-- Fuel bound for a while-loop stepping from d1 towards d2 one day at a
time: the day-number gap plus one. -/
def gapFuel (d1 d2 : NaiveDate) : Nat := (d2.toDays - d1.toDays + 1).toNat

/-- Backward walk to a target weekday (source: while d.weekday() != w
d = d.pred(); at most six steps are taken for any chrono date, so fuel 7
makes the embedding total). -/
def to_weekday_back : Nat → NaiveDate → Weekday → NaiveDate
  | 0, d, _ => d
  | n + 1, d, w => if d.weekday = w then d else to_weekday_back n d.pred w

/-- Forward walk to a target weekday (source: while d.weekday() != w
d = d.succ()). -/
def to_weekday_fwd : Nat → NaiveDate → Weekday → NaiveDate
  | 0, d, _ => d
  | n + 1, d, w => if d.weekday = w then d else to_weekday_fwd n d.succ w

/-- timelogger.rs get_monday_in_week_of. -/
def get_monday_in_week_of (date : NaiveDate) : NaiveDate := to_weekday_back 7 date .mon

/-- timelogger.rs get_sunday_in_week_of. -/
def get_sunday_in_week_of (date : NaiveDate) : NaiveDate := to_weekday_fwd 7 date .sun

/-- timelogger.rs get_first_day_in_month_of (NaiveDate::from_ymd(year, month, 1)). -/
def get_first_day_in_month_of (date : NaiveDate) : NaiveDate := ⟨date.year, date.month, 1⟩

/-- timelogger.rs MONTH_2_NDAYS. -/
def MONTH_2_NDAYS : List Nat := [31, 28, 31, 30, 31, 30, 31, 31, 30, 31, 30, 31]

/-- timelogger.rs get_last_day_in_month_of
(NaiveDate::from_ymd(year, month, MONTH_2_NDAYS[month0])); month0 is the
zero-based month index. -/
def get_last_day_in_month_of (date : NaiveDate) : NaiveDate :=
  ⟨date.year, date.month, MONTH_2_NDAYS.getD (date.month - 1) 0⟩

/-- timelog.rs TimeLogError.  The Rust constructors carry message strings /
wrapped errors that the engine never inspects (its PartialEq compares
constructors only), so the embedding keeps just the constructor. -/
inductive TimeLogError where
  | parseError
  | timeError
  | invalidInputError
  | ioError
deriving DecidableEq, Repr

/-- timelog.rs TimeLogEntryType. -/
inductive TimeLogEntryType where
  | Work
  | Sickness
  | Vacation
  | ParentalLeave
deriving DecidableEq, Repr

/-- Declaration-order ordinal backing the derived Rust Ord on
TimeLogEntryType. -/
def TimeLogEntryType.ordinal : TimeLogEntryType → Nat
  | .Work => 0
  | .Sickness => 1
  | .Vacation => 2
  | .ParentalLeave => 3

/-- Modelled from the spec: TimeLogEntryType::iterator() is called by
timelogger.rs but its definition is not among the sources; per the spec the
period queries "sum logged_time across all EntryType categories", so it
enumerates every variant of the enum. -/
def TimeLogEntryType.iterator : List TimeLogEntryType :=
  [.Work, .Sickness, .Vacation, .ParentalLeave]

/-- timelog.rs TimeLogEntry.  The Rust field named end is a Lean keyword;
it is embedded as the field stop. -/
structure TimeLogEntry where
  start : Option NaiveTime
  stop : Option NaiveTime
  entry_type : TimeLogEntryType
  date : NaiveDate
deriving DecidableEq, Repr

/-- timelog.rs impl Ord for TimeLogEntry (the source matches on the tuple
(self.start, self.end, self.entry_type, self.date, other.start, other.end,
other.entry_type, other.date) with the arm order preserved here). -/
def TimeLogEntry.cmp (a b : TimeLogEntry) : Ordering :=
  match a.start, a.stop, b.start, b.stop with
  | _, some e, some s, _ => NaiveTime.cmp e s
  | some s, _, _, some e => NaiveTime.cmp s e
  | some s0, _, some s1, _ => NaiveTime.cmp s0 s1
  | _, some e0, _, some e1 => NaiveTime.cmp e0 e1
  | _, _, _, _ => compare a.entry_type.ordinal b.entry_type.ordinal

/-- timelog.rs TimeLogDay. -/
structure TimeLogDay where
  date : NaiveDate
  entries : List TimeLogEntry
deriving DecidableEq, Repr

/-- timelog.rs is_weekday. -/
def is_weekday (date : NaiveDate) : Bool :=
  date.weekday ≠ Weekday.sat && date.weekday ≠ Weekday.sun

/-- timelog.rs TimeLogDay::loggable_time. -/
def TimeLogDay.loggable_time (day : TimeLogDay) (_etype : TimeLogEntryType) : Duration :=
  if is_weekday day.date then Duration.hours 8 else Duration.hours 0

/-- timelog.rs TimeLogDay::logged_time: sum of end - start over the
entries of the requested type that have both bounds set. -/
def TimeLogDay.logged_time (day : TimeLogDay) (etype : TimeLogEntryType) : Duration :=
  day.entries.foldl
    (fun sum e =>
      match e.start, e.stop with
      | some start, some stop =>
          if e.entry_type = etype then sum + stop.signed_duration_since start else sum
      | _, _ => sum)
    (Duration.seconds 0)

/-- First entry of the day of the requested type that has a start and no
end (the entry the provisional-end query extends). -/
def TimeLogDay.firstOpenEntry (day : TimeLogDay) (etype : TimeLogEntryType) : Option TimeLogEntry :=
  day.entries.find? (fun e => e.start.isSome && e.stop.isNone && e.entry_type = etype)

/-- Modelled from the spec: TimeLogDay::time_logged_with as called by
timelogger.rs (with an Option end) is not among the sources.  Per the spec
it is like logged_time but, when an entry of the type has a start and no
end, the provisional end minus that start is added; it fails with
InvalidInput if the day has no entries, or has entries but none carries a
start.  The older in-tree revision of the function (timelog.rs) has the
same body for a mandatory end and extends the first open entry, which this
model follows. -/
def TimeLogDay.time_logged_with (day : TimeLogDay) (w : Option NaiveTime)
    (etype : TimeLogEntryType) : Except TimeLogError Duration :=
  if day.entries.isEmpty then .error .invalidInputError
  else if day.entries.all (fun e => e.start.isNone) then .error .invalidInputError
  else
    let dur := day.logged_time etype
    match w with
    | none => .ok dur
    | some t =>
      match day.firstOpenEntry etype with
      | some e =>
        match e.start with
        | some s => .ok (dur + t.signed_duration_since s)
        | none => .ok dur
      | none => .ok dur

/-- Modelled from the spec: TimeLogDay::full, used by batch_add, is not
among the sources; per the spec it is the day holding a single full-day
entry of the given type with no start or end. -/
def TimeLogDay.full (date : NaiveDate) (ty : TimeLogEntryType) : TimeLogDay :=
  ⟨date, [⟨none, none, ty, date⟩]⟩

/-- timelogger.rs TimeLogger.date2logday, embedded as an association list
standing for the HashMap (the file path plays no role in the claims). -/
abbrev TimeLogger := List (NaiveDate × TimeLogDay)

/-- HashMap::get on the ledger. -/
def date2logday (tl : TimeLogger) (d : NaiveDate) : Option TimeLogDay := tl.lookup d

/-- Smallest key of the ledger (source: collect keys, sort, take keys[0]). -/
def minLedgerKey : TimeLogger → Option NaiveDate
  | [] => none
  | (k, _) :: rest =>
    match minLedgerKey rest with
    | none => some k
    | some m => if k.ble m then some k else some m

/-- Loop body shared by the two gen_time_between! instances of
timelogger.rs: while date <= day2, add the recorded day's getter value (or
the default for an unrecorded date) whenever the date passes the weekend
filter, then step to the next day.  Fuel-indexed; the callers supply fuel
covering the whole range. -/
def time_between_aux (tl : TimeLogger) (getter : TimeLogDay → TimeLogEntryType → Duration)
    (defaultDur : Duration) (allow_weekend : Bool) (etype : TimeLogEntryType) :
    Nat → NaiveDate → NaiveDate → Duration
  | 0, _, _ => Duration.seconds 0
  | n + 1, date, day2 =>
    if date.ble day2 then
      (if allow_weekend || is_weekday date then
        (match date2logday tl date with
         | some x => getter x etype
         | none => defaultDur)
       else Duration.seconds 0)
      + time_between_aux tl getter defaultDur allow_weekend etype n date.succ day2
    else Duration.seconds 0

/-- timelogger.rs compute_logged_time_between
(gen_time_between!(compute_logged_time_between, logged_time, 0, true)). -/
def compute_logged_time_between (tl : TimeLogger) (day1 day2 : NaiveDate)
    (etype : TimeLogEntryType) : Duration :=
  if day2.blt day1 then Duration.seconds 0
  else time_between_aux tl TimeLogDay.logged_time (Duration.hours 0) true etype
    (gapFuel day1 day2) day1 day2

/-- timelogger.rs compute_loggable_time_between
(gen_time_between!(compute_loggable_time_between, loggable_time, 8, false)). -/
def compute_loggable_time_between (tl : TimeLogger) (day1 day2 : NaiveDate)
    (etype : TimeLogEntryType) : Duration :=
  if day2.blt day1 then Duration.seconds 0
  else time_between_aux tl TimeLogDay.loggable_time (Duration.hours 8) false etype
    (gapFuel day1 day2) day1 day2

/-- timelogger.rs compute_loggable_time_in_week_of. -/
def compute_loggable_time_in_week_of (tl : TimeLogger) (date : NaiveDate)
    (etype : TimeLogEntryType) : Duration :=
  compute_loggable_time_between tl (get_monday_in_week_of date) (get_sunday_in_week_of date) etype

/-- timelogger.rs compute_loggable_time_in_month_of. -/
def compute_loggable_time_in_month_of (tl : TimeLogger) (date : NaiveDate)
    (etype : TimeLogEntryType) : Duration :=
  compute_loggable_time_between tl (get_first_day_in_month_of date)
    (get_last_day_in_month_of date) etype

/-- The prev_week_sunday computation inside timelogger.rs flextime_as_of:
start from date (or its predecessor when date itself is a Sunday) and walk
back to a Sunday. -/
def flex_prev_week_sunday (date : NaiveDate) : NaiveDate :=
  to_weekday_back 7 (if date.weekday = Weekday.sun then date.pred else date) Weekday.sun

/-- timelogger.rs flextime_as_of. -/
def flextime_as_of (tl : TimeLogger) (date : NaiveDate) : Duration :=
  match minLedgerKey tl with
  | none => Duration.hours 0
  | some k0 =>
    let prev_week_sunday := flex_prev_week_sunday date
    if prev_week_sunday.ble k0 then Duration.hours 0
    else
      let start_date := k0
      let end_date := prev_week_sunday
      let logged_time :=
        (TimeLogEntryType.iterator.map
          (fun x => compute_logged_time_between tl start_date end_date x)).foldl
          (· + ·) (Duration.hours 0)
      compute_loggable_time_between tl start_date end_date TimeLogEntryType.Work - logged_time

/-- Outcome of a Rust call that can panic: panicked models an assert!
failure or a HashMap index on a missing key; value is a normal return. -/
inductive TLOutcome (α : Type) where
  | panicked
  | value (v : α)
deriving DecidableEq, Repr

/-- The last_date_with_entries loop of gen_time_logged_in_timeperiod_with!:
while the ledger has a day for the successor of the cursor and the cursor
has not reached end_date, advance the cursor. -/
def last_entries_aux (tl : TimeLogger) : Nat → NaiveDate → NaiveDate → NaiveDate
  | 0, cur, _ => cur
  | n + 1, cur, end_date =>
    if (date2logday tl cur.succ).isSome ∧ cur ≠ end_date then
      last_entries_aux tl n cur.succ end_date
    else cur

/-- Body of gen_time_logged_in_timeperiod_with! for resolved period bounds:
sum compute_logged_time_between over every entry type; when a provisional
time is given, walk to last_date_with_entries, index the ledger there (a
missing day panics, as HashMap indexing does), and replace that day's
logged_time(Work) by its time_logged_with value. -/
def time_logged_in_timeperiod_with (tl : TimeLogger) (start_date end_date : NaiveDate)
    (w : Option NaiveTime) : TLOutcome (Except TimeLogError Duration) :=
  let logged_time :=
    (TimeLogEntryType.iterator.map
      (fun x => compute_logged_time_between tl start_date end_date x)).foldl
      (· + ·) (Duration.hours 0)
  match w with
  | none => .value (.ok logged_time)
  | some _ =>
    let last_date_with_entries :=
      last_entries_aux tl (gapFuel start_date end_date) start_date end_date
    match date2logday tl last_date_with_entries with
    | none => .panicked
    | some last_tld =>
      let last_tld_logged := last_tld.logged_time TimeLogEntryType.Work
      match last_tld.time_logged_with w TimeLogEntryType.Work with
      | .error e => .value (.error e)
      | .ok last_tld_logged_with =>
        .value (.ok (logged_time - last_tld_logged + last_tld_logged_with))

/-- timelogger.rs time_logged_in_week_of_with. -/
def time_logged_in_week_of_with (tl : TimeLogger) (date : NaiveDate)
    (w : Option NaiveTime) : TLOutcome (Except TimeLogError Duration) :=
  time_logged_in_timeperiod_with tl (get_monday_in_week_of date) (get_sunday_in_week_of date) w

/-- timelogger.rs time_logged_in_month_of_with. -/
def time_logged_in_month_of_with (tl : TimeLogger) (date : NaiveDate)
    (w : Option NaiveTime) : TLOutcome (Except TimeLogError Duration) :=
  time_logged_in_timeperiod_with tl (get_first_day_in_month_of date)
    (get_last_day_in_month_of date) w

/-- timelogger.rs time_left_in_week_of_with
(gen_time_left_in_timeperiod_with!). -/
def time_left_in_week_of_with (tl : TimeLogger) (date : NaiveDate)
    (w : Option NaiveTime) : TLOutcome (Except TimeLogError (Duration × Duration)) :=
  let workable_time := compute_loggable_time_in_week_of tl date TimeLogEntryType.Work
  match time_logged_in_week_of_with tl date w with
  | .panicked => .panicked
  | .value (.error e) => .value (.error e)
  | .value (.ok logged_time) =>
    let flex_time := flextime_as_of tl date
    .value (.ok (workable_time - logged_time + flex_time, flex_time))

/-- timelogger.rs time_left_in_month_of_with. -/
def time_left_in_month_of_with (tl : TimeLogger) (date : NaiveDate)
    (w : Option NaiveTime) : TLOutcome (Except TimeLogError (Duration × Duration)) :=
  let workable_time := compute_loggable_time_in_month_of tl date TimeLogEntryType.Work
  match time_logged_in_month_of_with tl date w with
  | .panicked => .panicked
  | .value (.error e) => .value (.error e)
  | .value (.ok logged_time) =>
    let flex_time := flextime_as_of tl date
    .value (.ok (workable_time - logged_time + flex_time, flex_time))

/-- Loop of timelogger.rs batch_add: while cur < to, skip weekend dates
when weekday_only, fail with InvalidInput (keeping the days already
inserted) when cur already has a day, otherwise insert a full day.  Fuel
exhaustion is unreachable for valid bounds and is mapped to panicked. -/
def batch_add_aux (ty : TimeLogEntryType) (weekday_only : Bool) :
    Nat → TimeLogger → NaiveDate → NaiveDate → TLOutcome (TimeLogger × Except TimeLogError Unit)
  | 0, _, _, _ => .panicked
  | n + 1, tl, cur, tod =>
    if cur.blt tod then
      if weekday_only && !is_weekday cur then batch_add_aux ty weekday_only n tl cur.succ tod
      else
        match date2logday tl cur with
        | some _ => .value (tl, .error .invalidInputError)
        | none => batch_add_aux ty weekday_only n ((cur, TimeLogDay.full cur ty) :: tl) cur.succ tod
    else .value (tl, .ok ())

/-- timelogger.rs batch_add.  The source opens with assert!(from < to),
which is active in release builds; a violated assert is a panic. -/
def batch_add (tl : TimeLogger) (ty : TimeLogEntryType) (fromd tod : NaiveDate)
    (weekday_only : Bool) : TLOutcome (TimeLogger × Except TimeLogError Unit) :=
  if fromd.blt tod then batch_add_aux ty weekday_only (gapFuel fromd tod) tl fromd tod
  else .panicked

/-- Iterated successor. -/
def succN : Nat → NaiveDate → NaiveDate
  | 0, d => d
  | n + 1, d => succN n d.succ

/-- Iterated predecessor. -/
def predN : Nat → NaiveDate → NaiveDate
  | 0, d => d
  | n + 1, d => predN n d.pred

/-- Coarse rank that strictly increases under succ on valid dates (used
only as an induction measure). -/
def dateRank (d : NaiveDate) : Int := d.year * 372 + 31 * (d.month : Int) + (d.day : Int)

/-- The list of dates visited by a while date <= d2 loop starting at d1
(fuel-indexed like the loops themselves). -/
def dateRangeAux : Nat → NaiveDate → NaiveDate → List NaiveDate
  | 0, _, _ => []
  | n + 1, d, d2 => if d.ble d2 then d :: dateRangeAux n d.succ d2 else []

/-- The closed date interval from d1 to d2. -/
def dateRange (d1 d2 : NaiveDate) : List NaiveDate :=
  dateRangeAux (gapFuel d1 d2) d1 d2

/-- Contribution of one date to a gen_time_between! loop. -/
def time_between_step (tl : TimeLogger) (getter : TimeLogDay → TimeLogEntryType → Duration)
    (defaultDur : Duration) (allow_weekend : Bool) (etype : TimeLogEntryType)
    (date : NaiveDate) : Duration :=
  if allow_weekend || is_weekday date then
    (match date2logday tl date with
     | some x => getter x etype
     | none => defaultDur)
  else Duration.seconds 0

/-- The date whose logged Work time the provisional adjustment of
gen_time_logged_in_timeperiod_with! actually replaces: the last date of
the run of recorded days that starts right after the period's first day
(capped at the period's last day); the period's first day itself when even
its successor has no record. -/
def last_recorded_run_end (tl : TimeLogger) (start_date end_date : NaiveDate) : NaiveDate :=
  match ((dateRange start_date.succ end_date).takeWhile
      (fun x => (date2logday tl x).isSome)).getLast? with
  | some x => x
  | none => start_date

/-- Claim-side reading of the provisional adjustment (C2): the adjusted
day is the last date anywhere in the period that has a Day record; none if
the period has no recorded date at all. -/
def last_recorded_in_period (tl : TimeLogger) (start_date end_date : NaiveDate) :
    Option NaiveDate :=
  ((dateRange start_date end_date).filter (fun x => (date2logday tl x).isSome)).getLast?

/-- Claim-side reading of time_logged_in_week_of_with (C2, following the
spec text): sum logged_time across all entry types over the week; with a
provisional time, replace the plain logged_time(Work) contribution of the
last date in the period that has any Day record by that day's
time_logged_with value. -/
def time_logged_in_week_of_with_claimed (tl : TimeLogger) (date : NaiveDate)
    (w : Option NaiveTime) : Option (Except TimeLogError Duration) :=
  let start_date := get_monday_in_week_of date
  let end_date := get_sunday_in_week_of date
  let logged_time :=
    (TimeLogEntryType.iterator.map
      (fun x => compute_logged_time_between tl start_date end_date x)).foldl
      (· + ·) (Duration.hours 0)
  match w with
  | none => some (.ok logged_time)
  | some _ =>
    match last_recorded_in_period tl start_date end_date with
    | none => none
    | some ld =>
      match date2logday tl ld with
      | none => none
      | some tld =>
        match tld.time_logged_with w TimeLogEntryType.Work with
        | .error e => some (.error e)
        | .ok v => some (.ok (logged_time - tld.logged_time TimeLogEntryType.Work + v))

/-- Straight-line reference for the batch_add loop: insert a full day for
each date of the list in order, stopping with InvalidInput (and keeping
the insertions already made) at the first date that already has a
record. -/
def batch_ref (ty : TimeLogEntryType) (tl : TimeLogger) :
    List NaiveDate → TimeLogger × Except TimeLogError Unit
  | [] => (tl, .ok ())
  | d :: ds =>
    match date2logday tl d with
    | some _ => (tl, .error .invalidInputError)
    | none => batch_ref ty ((d, TimeLogDay.full d ty) :: tl) ds

/-- The dates batch_add targets: the half-open range from fromd to tod,
restricted to weekdays when weekday_only is set. -/
def batch_targets (fromd tod : NaiveDate) (weekday_only : Bool) : List NaiveDate :=
  ((dateRange fromd tod).dropLast).filter (fun x => !weekday_only || is_weekday x)

/-- Example ledger: the week of 2017/12/18 with an open Work entry on
Monday and a closed one on Wednesday. -/
def exampleLedgerRunGap : TimeLogger :=
  [(⟨2017, 12, 18⟩, ⟨⟨2017, 12, 18⟩, [⟨some ⟨8, 0, 0⟩, none, .Work, ⟨2017, 12, 18⟩⟩]⟩),
   (⟨2017, 12, 20⟩, ⟨⟨2017, 12, 20⟩, [⟨some ⟨8, 0, 0⟩, some ⟨12, 0, 0⟩, .Work, ⟨2017, 12, 20⟩⟩]⟩)]

/-- Example ledger: only Wednesday 2017/12/20 has a record. -/
def exampleLedgerWedOnly : TimeLogger :=
  [(⟨2017, 12, 20⟩, ⟨⟨2017, 12, 20⟩, [⟨some ⟨8, 0, 0⟩, some ⟨12, 0, 0⟩, .Work, ⟨2017, 12, 20⟩⟩]⟩)]

/-- Example ledger: the Monday of the scenario in the spec, holding the
two entries Work 06:31:00-07:00:00 and Work 07:31:00-UNDEF. -/
def exampleLedgerScenarioMon : TimeLogger :=
  [(⟨2017, 12, 18⟩, ⟨⟨2017, 12, 18⟩,
    [⟨some ⟨6, 31, 0⟩, some ⟨7, 0, 0⟩, .Work, ⟨2017, 12, 18⟩⟩,
     ⟨some ⟨7, 31, 0⟩, none, .Work, ⟨2017, 12, 18⟩⟩]⟩)]

/-- Example ledger: 7h logged on Monday 2018/01/01, 8h on Monday
2018/01/08. -/
def exampleLedgerJan : TimeLogger :=
  [(⟨2018, 1, 1⟩, ⟨⟨2018, 1, 1⟩, [⟨some ⟨8, 0, 0⟩, some ⟨15, 0, 0⟩, .Work, ⟨2018, 1, 1⟩⟩]⟩),
   (⟨2018, 1, 8⟩, ⟨⟨2018, 1, 8⟩, [⟨some ⟨8, 0, 0⟩, some ⟨16, 0, 0⟩, .Work, ⟨2018, 1, 8⟩⟩]⟩)]

/-- Decidable equality for Except results, used to evaluate outcomes on
concrete inputs. -/
instance {e a : Type} [DecidableEq e] [DecidableEq a] : DecidableEq (Except e a) := fun x y =>
  match x, y with
  | .error u, .error v => decidable_of_iff (u = v) (by simp)
  | .error _, .ok _ => isFalse (fun h => Except.noConfusion h)
  | .ok _, .error _ => isFalse (fun h => Except.noConfusion h)
  | .ok u, .ok v => decidable_of_iff (u = v) (by simp)

/-- Numeric index of a weekday, 0 = Monday .. 6 = Sunday. -/
def wnum : Weekday → Int
  | .mon => 0
  | .tue => 1
  | .wed => 2
  | .thu => 3
  | .fri => 4
  | .sat => 5
  | .sun => 6

/-- Sum of compute_logged_time_between over every entry type, as formed by
the period queries and the flex computation. -/
def sum_logged_over_types (tl : TimeLogger) (sd ed : NaiveDate) : Duration :=
  (TimeLogEntryType.iterator.map
    (fun x => compute_logged_time_between tl sd ed x)).foldl (· + ·) (Duration.hours 0)


/-- ASCII digit character for a value below ten. -/
def digitChar (n : Nat) : Char := Char.ofNat (48 + n)

/-- Two-digit zero-padded decimal rendering (chrono %m, %d, %H, %M, %S). -/
def pad2 (n : Nat) : List Char := [digitChar (n / 10 % 10), digitChar (n % 10)]

/-- Four-digit zero-padded decimal rendering (chrono %Y on years 0..9999). -/
def pad4 (n : Nat) : List Char :=
  [digitChar (n / 1000 % 10), digitChar (n / 100 % 10), digitChar (n / 10 % 10),
   digitChar (n % 10)]

/-- chrono %a weekday abbreviation. -/
def weekdayAbbrev : Weekday → List Char
  | .mon => ['M', 'o', 'n']
  | .tue => ['T', 'u', 'e']
  | .wed => ['W', 'e', 'd']
  | .thu => ['T', 'h', 'u']
  | .fri => ['F', 'r', 'i']
  | .sat => ['S', 'a', 't']
  | .sun => ['S', 'u', 'n']

/-- Display for TimeLogEntryType delegates to Debug, which prints the exact
variant name. -/
def typeName : TimeLogEntryType → List Char
  | .Work => ['W', 'o', 'r', 'k']
  | .Sickness => ['S', 'i', 'c', 'k', 'n', 'e', 's', 's']
  | .Vacation => ['V', 'a', 'c', 'a', 't', 'i', 'o', 'n']
  | .ParentalLeave => ['P', 'a', 'r', 'e', 'n', 't', 'a', 'l', 'L', 'e', 'a', 'v', 'e']

/-- The UNDEF sentinel written for an unset time bound. -/
def undefChars : List Char := ['U', 'N', 'D', 'E', 'F']

/-- chrono Display for NaiveTime on whole-second times: HH:MM:SS. -/
def renderTime (t : NaiveTime) : List Char :=
  pad2 t.hh ++ ':' :: pad2 t.mm ++ ':' :: pad2 t.ss

/-- timelog.rs opt_naivetime_to_str. -/
def opt_naivetime_to_str : Option NaiveTime → List Char
  | some t => renderTime t
  | none => undefChars

/-- timelog.rs impl Display for TimeLogEntry: the date under the
"%Y/%m/%d %a" format string, " | ", the entry type, and the two bounds. -/
def serializeEntry (e : TimeLogEntry) : List Char :=
  pad4 e.date.year.toNat ++ '/' :: pad2 e.date.month ++ '/' :: pad2 e.date.day ++
    ' ' :: weekdayAbbrev e.date.weekday ++ ' ' :: '|' :: ' ' ::
    (typeName e.entry_type ++ ' ' :: opt_naivetime_to_str e.start ++
      ' ' :: opt_naivetime_to_str e.stop)

/-- Decimal digit test on characters. -/
def isDigitC (c : Char) : Bool := 48 ≤ c.toNat && c.toNat ≤ 57

/-- Value of a decimal digit character. -/
def digitVal (c : Char) : Nat := c.toNat - 48

/-- Greedy digit scan that consumes at most the given number of further
characters (chrono scan::number respecting the field's maximum width). -/
def scanNum : Nat → Nat → List Char → Nat × List Char
  | 0, acc, s => (acc, s)
  | _ + 1, acc, [] => (acc, [])
  | k + 1, acc, c :: rest =>
    if isDigitC c then scanNum k (10 * acc + digitVal c) rest else (acc, c :: rest)

/-- chrono numeric-field parse: at least one and at most mx digits. -/
def parseNum (mx : Nat) (s : List Char) : Option (Nat × List Char) :=
  match s with
  | [] => none
  | c :: rest => if isDigitC c then some (scanNum (mx - 1) (digitVal c) rest) else none

/-- Consume one expected literal character. -/
def expectChar (c : Char) (s : List Char) : Option (List Char) :=
  match s with
  | x :: rest => if x == c then some rest else none
  | [] => none

/-- The chrono %a item at the end of the format: the remainder must be
exactly one weekday abbreviation, since parse_from_str rejects unconsumed
trailing input. -/
def weekdayFromAbbrev (s : List Char) : Option Weekday :=
  if s = weekdayAbbrev .mon then some .mon
  else if s = weekdayAbbrev .tue then some .tue
  else if s = weekdayAbbrev .wed then some .wed
  else if s = weekdayAbbrev .thu then some .thu
  else if s = weekdayAbbrev .fri then some .fri
  else if s = weekdayAbbrev .sat then some .sat
  else if s = weekdayAbbrev .sun then some .sun
  else none

/-- chrono NaiveDate::parse_from_str with "%Y/%m/%d %a": an unsigned year of
at most four digits, a slash, the month, a slash, the day, a space and the
weekday abbreviation; the date must exist and the written weekday must agree
with the one computed from the date (chrono Parsed::to_naive_date rejects
inconsistent fields). -/
def parseDateFmt (s : List Char) : Option NaiveDate :=
  (parseNum 4 s).bind fun yr =>
    (expectChar '/' yr.2).bind fun r2 =>
      (parseNum 2 r2).bind fun mr =>
        (expectChar '/' mr.2).bind fun r4 =>
          (parseNum 2 r4).bind fun dr =>
            (expectChar ' ' dr.2).bind fun r6 =>
              (weekdayFromAbbrev r6).bind fun w =>
                if ((⟨(yr.1 : Int), mr.1, dr.1⟩ : NaiveDate).isValid ∧
                    (⟨(yr.1 : Int), mr.1, dr.1⟩ : NaiveDate).weekday = w)
                then some ⟨(yr.1 : Int), mr.1, dr.1⟩ else none

/-- leadsWith pat s: s begins with pat. -/
def leadsWith : List Char → List Char → Bool
  | [], _ => true
  | _ :: _, [] => false
  | a :: as, b :: bs => a == b && leadsWith as bs

/-- Rust str::contains for the UNDEF needle. -/
def containsUNDEF : List Char → Bool
  | [] => false
  | c :: rest => leadsWith undefChars (c :: rest) || containsUNDEF rest

/-- Acceptable remainder after the seconds field for chrono NaiveTime
FromStr: empty, or a dot followed by at least one digit (the optional
fractional second; only an all-zero fraction keeps the value representable
as the whole-second NaiveTime of this embedding, and the serializer never
writes a fraction). -/
def fracOk : List Char → Bool
  | [] => true
  | c :: rest => c == '.' && !rest.isEmpty && rest.all (fun d => d == '0')

/-- chrono NaiveTime FromStr: hour, colon, minute, colon, second (each one
or two digits), an optional fractional second, full consumption, and range
validation. -/
def parseTimeChars (s : List Char) : Option NaiveTime :=
  (parseNum 2 s).bind fun hr =>
    (expectChar ':' hr.2).bind fun r2 =>
      (parseNum 2 r2).bind fun mr =>
        (expectChar ':' mr.2).bind fun r4 =>
          (parseNum 2 r4).bind fun sr =>
            if fracOk sr.2 = true ∧ hr.1 < 24 ∧ mr.1 < 60 ∧ sr.1 < 60
            then some ⟨hr.1, mr.1, sr.1⟩ else none

/-- timelog.rs try_get_naivetime: UNDEF anywhere in the field means an unset
bound; otherwise NaiveTime::from_str, with a parse failure silently turned
into None by .ok(). -/
def try_get_naivetime (s : List Char) : Option NaiveTime :=
  if containsUNDEF s then none else parseTimeChars s

/-- Rust str::trim (serialized lines only ever carry whitespace that
Char.isWhitespace covers). -/
def trimChars (s : List Char) : List Char :=
  ((s.dropWhile Char.isWhitespace).reverse.dropWhile Char.isWhitespace).reverse

/-- Rust str::split for a one-character separator: the pieces of s between
occurrences of sep, always at least one piece. -/
def splitOnChar (sep : Char) : List Char → List (List Char)
  | [] => [[]]
  | c :: rest =>
    if c == sep then [] :: splitOnChar sep rest
    else
      match splitOnChar sep rest with
      | [] => [[c]]
      | p :: ps => (c :: p) :: ps

/-- timelog.rs impl FromStr for TimeLogEntryType (arm order preserved). -/
def entryTypeFromChars (s : List Char) : Except TimeLogError TimeLogEntryType :=
  if s = typeName .Work then .ok .Work
  else if s = typeName .ParentalLeave then .ok .ParentalLeave
  else if s = typeName .Vacation then .ok .Vacation
  else if s = typeName .Sickness then .ok .Sickness
  else .error .parseError

/-- A missing piece is a ParseError (the ok_or_else calls in from_str). -/
def req {α : Type} (o : Option α) : Except TimeLogError α :=
  match o with
  | none => .error .parseError
  | some a => .ok a

/-- timelog.rs impl FromStr for TimeLogEntry: split on the pipe, parse the
trimmed first piece as a date, split the trimmed second piece on spaces, and
read type, start and end from its first three tokens; a chrono date error or
a missing piece is a ParseError, while an unparsable time silently becomes
None inside try_get_naivetime. -/
def entryFromChars (s : List Char) : Except TimeLogError TimeLogEntry :=
  (req (splitOnChar '|' s).head?).bind fun p0 =>
    (req (parseDateFmt (trimChars p0))).bind fun date =>
      (req (splitOnChar '|' s).tail.head?).bind fun p1 =>
        (req (splitOnChar ' ' (trimChars p1)).head?).bind fun t0 =>
          (entryTypeFromChars (trimChars t0)).bind fun ty =>
            (req (splitOnChar ' ' (trimChars p1)).tail.head?).bind fun t1 =>
              (req (splitOnChar ' ' (trimChars p1)).tail.tail.head?).bind fun t2 =>
                .ok ⟨try_get_naivetime (trimChars t1), try_get_naivetime (trimChars t2),
                     ty, date⟩

/-- A time bound, when present, is a representable time of day. -/
def optTimeValid : Option NaiveTime → Prop
  | none => True
  | some t => t.isValid

instance (o : Option NaiveTime) : Decidable (optTimeValid o) := by
  cases o <;> unfold optTimeValid <;> infer_instance

/-- A valid entry: an existing date within the four-digit-year range the
Display format can write, and representable whole-second time bounds
(set_start and set_end assert a zero nanosecond field). -/
def validEntry (e : TimeLogEntry) : Prop :=
  e.date.isValid ∧ 0 ≤ e.date.year ∧ e.date.year ≤ 9999 ∧
    optTimeValid e.start ∧ optTimeValid e.stop

instance (e : TimeLogEntry) : Decidable (validEntry e) := by
  unfold validEntry; infer_instance

/-- A time field of a well-formed line: the UNDEF sentinel or a rendered
valid time. -/
def timeFieldShape (s : List Char) : Prop :=
  s = undefChars ∨ ∃ t : NaiveTime, t.isValid ∧ s = renderTime t

/-- A well-formed entry line, transcribed from the grammar of the format
"YYYY/MM/DD <weekday-abbrev> | <EntryType> <start-or-UNDEF> <end-or-UNDEF>":
zero-padded numeric fields of an existing date in the writable year range,
the weekday abbreviation derived from the date, one space between fields,
and time fields that are UNDEF or a rendered valid time. -/
def wellFormedLine (s : List Char) : Prop :=
  ∃ (dt : NaiveDate) (ty : TimeLogEntryType) (sf ef : List Char),
    dt.isValid ∧ 0 ≤ dt.year ∧ dt.year ≤ 9999 ∧ timeFieldShape sf ∧ timeFieldShape ef ∧
    s = pad4 dt.year.toNat ++ '/' :: pad2 dt.month ++ '/' :: pad2 dt.day ++
      ' ' :: weekdayAbbrev dt.weekday ++ ' ' :: '|' :: ' ' ::
      (typeName ty ++ ' ' :: sf ++ ' ' :: ef)


-- ===================== theorems =====================

theorem daysInMonth_ge_28 (y : Int) (m : Nat) : 28 ≤ daysInMonth y m := by
  unfold daysInMonth
  split <;> try split <;> omega

theorem daysInMonth_le_31 (y : Int) (m : Nat) : daysInMonth y m ≤ 31 := by
  unfold daysInMonth
  split <;> try split <;> omega

theorem day_step (y : Int) (m : Nat) (d : Nat) :
    NaiveDate.toDays ⟨y, m, d + 1⟩ = NaiveDate.toDays ⟨y, m, d⟩ + 1 := by
  unfold NaiveDate.toDays
  simp only
  omega

theorem jan_step (y : Int) :
    NaiveDate.toDays ⟨y, 2, 1⟩ = NaiveDate.toDays ⟨y, 1, 31⟩ + 1 := by
  unfold NaiveDate.toDays
  norm_num
  omega

theorem feb_step (y : Int) :
    NaiveDate.toDays ⟨y, 3, 1⟩ = NaiveDate.toDays ⟨y, 2, daysInMonth y 2⟩ + 1 := by
  unfold NaiveDate.toDays daysInMonth isLeapYear
  by_cases hly : ((y % 4 == 0 && y % 100 != 0) || y % 400 == 0) = true
  · simp only [Bool.or_eq_true, Bool.and_eq_true, beq_iff_eq, bne_iff_ne] at hly
    simp only [hly]
    norm_num
    omega
  · simp only [Bool.or_eq_true, Bool.and_eq_true, beq_iff_eq, bne_iff_ne] at hly
    push_neg at hly
    simp only [hly]
    norm_num
    omega

theorem month_step (y : Int) (m : Nat) (h3 : 3 ≤ m) (h11 : m ≤ 11) :
    NaiveDate.toDays ⟨y, m + 1, 1⟩ = NaiveDate.toDays ⟨y, m, daysInMonth y m⟩ + 1 := by
  have hdm : daysInMonth y m = if m = 4 ∨ m = 6 ∨ m = 9 ∨ m = 11 then 30 else 31 := by
    unfold daysInMonth
    have : ¬ (m = 2) := by omega
    simp [this]
  unfold NaiveDate.toDays
  rw [hdm]
  interval_cases m <;> norm_num <;> omega

theorem dec_step (y : Int) :
    NaiveDate.toDays ⟨y + 1, 1, 1⟩ = NaiveDate.toDays ⟨y, 12, 31⟩ + 1 := by
  unfold NaiveDate.toDays
  norm_num
  omega

theorem toDays_succ (d : NaiveDate) (h : d.isValid) : d.succ.toDays = d.toDays + 1 := by
  obtain ⟨h1, h2, h3, h4⟩ := h
  unfold NaiveDate.succ
  by_cases hd : d.day < daysInMonth d.year d.month
  · simp only [hd, if_true]
    exact day_step d.year d.month d.day
  · simp only [hd, if_false]
    have hdm : d.day = daysInMonth d.year d.month := by omega
    have hdd : d = ⟨d.year, d.month, daysInMonth d.year d.month⟩ := by
      cases d; simp_all
    by_cases hm : d.month < 12
    · simp only [hm, if_true]
      rw [hdd]
      simp only
      rcases Nat.lt_or_ge d.month 2 with hlt | hge
      · have hm1 : d.month = 1 := by omega
        rw [hm1]
        have h31 : daysInMonth d.year 1 = 31 := by unfold daysInMonth; norm_num
        rw [h31]
        exact jan_step d.year
      · rcases Nat.eq_or_lt_of_le hge with he | hgt
        · have hm2 : d.month = 2 := he.symm
          rw [hm2]
          exact feb_step d.year
        · exact month_step d.year d.month hgt (by omega)
    · simp only [hm, if_false]
      have hm12 : d.month = 12 := by omega
      rw [hdd, hm12]
      have h31 : daysInMonth d.year 12 = 31 := by unfold daysInMonth; norm_num
      rw [h31]
      exact dec_step d.year

theorem isValid_succ (d : NaiveDate) (h : d.isValid) : d.succ.isValid := by
  obtain ⟨h1, h2, h3, h4⟩ := h
  unfold NaiveDate.succ NaiveDate.isValid
  have g1 := daysInMonth_ge_28 d.year (d.month + 1)
  have g2 := daysInMonth_ge_28 (d.year + 1) 1
  by_cases hd : d.day < daysInMonth d.year d.month
  · simp only [hd, if_true]
    omega
  · simp only [hd, if_false]
    by_cases hm : d.month < 12
    · simp only [hm, if_true]
      omega
    · simp only [hm, if_false]
      omega

theorem isValid_pred (d : NaiveDate) (h : d.isValid) : d.pred.isValid := by
  obtain ⟨h1, h2, h3, h4⟩ := h
  unfold NaiveDate.pred NaiveDate.isValid
  have g1 := daysInMonth_ge_28 d.year (d.month - 1)
  have g2 : daysInMonth (d.year - 1) 12 = 31 := by unfold daysInMonth; norm_num
  by_cases hd : 1 < d.day
  · simp only [hd, if_true]
    omega
  · simp only [hd, if_false]
    by_cases hm : 1 < d.month
    · simp only [hm, if_true]
      omega
    · simp only [hm, if_false]
      omega

theorem succ_pred (d : NaiveDate) (h : d.isValid) : d.pred.succ = d := by
  obtain ⟨h1, h2, h3, h4⟩ := h
  unfold NaiveDate.pred NaiveDate.succ
  by_cases hd : 1 < d.day
  · simp only [hd, if_true]
    have : d.day - 1 < daysInMonth d.year d.month := by omega
    simp only [this, if_true]
    have : d.day - 1 + 1 = d.day := by omega
    rw [this]
  · simp only [hd, if_false]
    have hday : d.day = 1 := by omega
    by_cases hm : 1 < d.month
    · simp only [hm, if_true]
      have hnl : ¬ (daysInMonth d.year (d.month - 1) < daysInMonth d.year (d.month - 1)) := by omega
      simp only [hnl, if_false]
      have hml : d.month - 1 < 12 := by omega
      simp only [hml, if_true]
      have : d.month - 1 + 1 = d.month := by omega
      rw [this, ← hday]
    · simp only [hm, if_false]
      have hm1 : d.month = 1 := by omega
      have g2 : daysInMonth (d.year - 1) 12 = 31 := by unfold daysInMonth; norm_num
      rw [g2]
      norm_num
      cases d
      simp_all

theorem toDays_pred (d : NaiveDate) (h : d.isValid) : d.pred.toDays = d.toDays - 1 := by
  have h1 := toDays_succ d.pred (isValid_pred d h)
  rw [succ_pred d h] at h1
  omega

theorem weekdayNum_bounds (d : NaiveDate) : 0 ≤ d.weekdayNum ∧ d.weekdayNum < 7 := by
  unfold NaiveDate.weekdayNum
  omega

theorem wnum_weekday (d : NaiveDate) : wnum d.weekday = d.weekdayNum := by
  obtain ⟨hb0, hb1⟩ := weekdayNum_bounds d
  unfold NaiveDate.weekday
  interval_cases h : d.weekdayNum <;> rfl

theorem weekday_eq_iff (d : NaiveDate) (w : Weekday) :
    d.weekday = w ↔ d.weekdayNum = wnum w := by
  constructor
  · intro h
    rw [← wnum_weekday, h]
  · intro h
    have h2 := wnum_weekday d
    rw [h] at h2
    cases hw : d.weekday <;> cases w <;> simp_all [wnum]

theorem weekdayNum_succ (d : NaiveDate) (h : d.isValid) :
    d.succ.weekdayNum = (d.weekdayNum + 1) % 7 := by
  unfold NaiveDate.weekdayNum
  rw [toDays_succ d h]
  omega

theorem weekdayNum_pred (d : NaiveDate) (h : d.isValid) :
    d.pred.weekdayNum = (d.weekdayNum + 6) % 7 := by
  unfold NaiveDate.weekdayNum
  rw [toDays_pred d h]
  omega

theorem succN_isValid (k : Nat) (d : NaiveDate) (h : d.isValid) : (succN k d).isValid := by
  induction k generalizing d with
  | zero => exact h
  | succ n ih => exact ih d.succ (isValid_succ d h)

theorem succN_toDays (k : Nat) (d : NaiveDate) (h : d.isValid) :
    (succN k d).toDays = d.toDays + k := by
  induction k generalizing d with
  | zero => simp [succN]
  | succ n ih =>
    show (succN n d.succ).toDays = _
    rw [ih d.succ (isValid_succ d h), toDays_succ d h]
    omega

theorem predN_isValid (k : Nat) (d : NaiveDate) (h : d.isValid) : (predN k d).isValid := by
  induction k generalizing d with
  | zero => exact h
  | succ n ih => exact ih d.pred (isValid_pred d h)

theorem predN_toDays (k : Nat) (d : NaiveDate) (h : d.isValid) :
    (predN k d).toDays = d.toDays - k := by
  induction k generalizing d with
  | zero => simp [predN]
  | succ n ih =>
    show (predN n d.pred).toDays = _
    rw [ih d.pred (isValid_pred d h), toDays_pred d h]
    omega

theorem predN_pred (k : Nat) (d : NaiveDate) :
    predN k d.pred = (predN k d).pred := by
  induction k generalizing d with
  | zero => rfl
  | succ n ih =>
    show predN n d.pred.pred = _
    rw [ih d.pred]
    rfl

theorem dateRank_succ (d : NaiveDate) (h : d.isValid) : dateRank d < dateRank d.succ := by
  obtain ⟨h1, h2, h3, h4⟩ := h
  have g1 := daysInMonth_le_31 d.year d.month
  unfold NaiveDate.succ dateRank
  by_cases hd : d.day < daysInMonth d.year d.month
  · simp only [hd, if_true]
    omega
  · simp only [hd, if_false]
    by_cases hm : d.month < 12
    · simp only [hm, if_true]
      omega
    · simp only [hm, if_false]
      omega

theorem dateRank_lt_of_blt (a b : NaiveDate) (ha : a.isValid) (hb : b.isValid)
    (h : a.blt b = true) : dateRank a < dateRank b := by
  obtain ⟨a1, a2, a3, a4⟩ := ha
  obtain ⟨b1, b2, b3, b4⟩ := hb
  have g1 := daysInMonth_le_31 a.year a.month
  have g2 := daysInMonth_le_31 b.year b.month
  unfold NaiveDate.blt at h
  unfold dateRank
  simp only [Bool.or_eq_true, Bool.and_eq_true, beq_iff_eq, decide_eq_true_eq] at h
  omega

theorem blt_of_ble_ne (a b : NaiveDate) (hle : a.ble b = true) (hne : a ≠ b) :
    a.blt b = true := by
  unfold NaiveDate.ble at hle
  unfold NaiveDate.blt
  simp only [Bool.or_eq_true, Bool.and_eq_true, beq_iff_eq, decide_eq_true_eq] at *
  have : ¬ (a.year = b.year ∧ a.month = b.month ∧ a.day = b.day) := by
    intro hcon
    exact hne (by cases a; cases b; simp_all)
  omega

theorem ble_total (a b : NaiveDate) : a.ble b = true ∨ b.ble a = true := by
  unfold NaiveDate.ble
  simp only [Bool.or_eq_true, Bool.and_eq_true, beq_iff_eq, decide_eq_true_eq]
  omega

theorem ble_of_blt (a b : NaiveDate) (h : a.blt b = true) : a.ble b = true := by
  unfold NaiveDate.blt at h
  unfold NaiveDate.ble
  simp only [Bool.or_eq_true, Bool.and_eq_true, beq_iff_eq, decide_eq_true_eq] at *
  omega

theorem not_ble_iff_blt (a b : NaiveDate) : ¬ a.ble b = true ↔ b.blt a = true := by
  unfold NaiveDate.ble NaiveDate.blt
  simp only [Bool.or_eq_true, Bool.and_eq_true, beq_iff_eq, decide_eq_true_eq]
  omega

theorem succ_ble_of_blt (a b : NaiveDate) (ha : a.isValid) (hb : b.isValid)
    (h : a.blt b = true) : a.succ.ble b = true := by
  obtain ⟨a1, a2, a3, a4⟩ := ha
  obtain ⟨b1, b2, b3, b4⟩ := hb
  unfold NaiveDate.blt at h
  unfold NaiveDate.succ NaiveDate.ble
  simp only [Bool.or_eq_true, Bool.and_eq_true, beq_iff_eq, decide_eq_true_eq] at *
  by_cases hd : a.day < daysInMonth a.year a.month
  · simp only [hd, if_true]
    rcases h with hy | ⟨hy, hm | ⟨hm, hdd⟩⟩
    · left; exact hy
    · right; exact ⟨hy, Or.inl hm⟩
    · right
      refine ⟨hy, Or.inr ⟨hm, ?_⟩⟩
      omega
  · simp only [hd, if_false]
    by_cases hm12 : a.month < 12
    · simp only [hm12, if_true]
      rcases h with hy | ⟨hy, hm | ⟨hm, hdd⟩⟩
      · left; exact hy
      · right
        refine ⟨hy, ?_⟩
        rcases Nat.lt_or_ge (a.month + 1) b.month with hlt | hge
        · exact Or.inl hlt
        · have hmeq : b.month = a.month + 1 := by omega
          exact Or.inr ⟨hmeq.symm, by omega⟩
      · exfalso
        rw [hy, hm] at hd
        omega
    · simp only [hm12, if_false]
      have ham : a.month = 12 := by omega
      rcases h with hy | ⟨hy, hm | ⟨hm, hdd⟩⟩
      · omega
      · omega
      · exfalso
        rw [hy, hm] at hd
        omega

theorem dateRank_le_of_ble (a b : NaiveDate) (ha : a.isValid) (hb : b.isValid)
    (h : a.ble b = true) : dateRank a ≤ dateRank b := by
  by_cases heq : a = b
  · rw [heq]
  · exact le_of_lt (dateRank_lt_of_blt a b ha hb (blt_of_ble_ne a b h heq))

theorem ble_reach_aux (b : NaiveDate) (hb : b.isValid) :
    ∀ n (a : NaiveDate), a.isValid → a.ble b = true →
      (dateRank b - dateRank a).toNat ≤ n → ∃ k, succN k a = b := by
  intro n
  induction n with
  | zero =>
    intro a ha hle hn
    by_cases heq : a = b
    · exact ⟨0, heq⟩
    · exfalso
      have := dateRank_lt_of_blt a b ha hb (blt_of_ble_ne a b hle heq)
      omega
  | succ n ih =>
    intro a ha hle hn
    by_cases heq : a = b
    · exact ⟨0, heq⟩
    · have hblt := blt_of_ble_ne a b hle heq
      have hble' := succ_ble_of_blt a b ha hb hblt
      have hva := isValid_succ a ha
      have hr1 := dateRank_succ a ha
      have hr2 := dateRank_le_of_ble a.succ b hva hb hble'
      obtain ⟨k, hk⟩ := ih a.succ hva hble' (by omega)
      exact ⟨k + 1, hk⟩

theorem toDays_le_of_ble (a b : NaiveDate) (ha : a.isValid) (hb : b.isValid)
    (h : a.ble b = true) : a.toDays ≤ b.toDays := by
  obtain ⟨k, hk⟩ := ble_reach_aux b hb (dateRank b - dateRank a).toNat a ha h (le_refl _)
  have := succN_toDays k a ha
  rw [hk] at this
  omega

theorem blt_irrefl_ne (a b : NaiveDate) (h : a.blt b = true) : a ≠ b := by
  intro heq
  rw [heq] at h
  unfold NaiveDate.blt at h
  simp only [Bool.or_eq_true, Bool.and_eq_true, beq_iff_eq, decide_eq_true_eq] at h
  omega

theorem ble_iff_toDays (a b : NaiveDate) (ha : a.isValid) (hb : b.isValid) :
    a.ble b = true ↔ a.toDays ≤ b.toDays := by
  constructor
  · exact toDays_le_of_ble a b ha hb
  · intro h
    by_contra hc
    have hblt := (not_ble_iff_blt a b).mp hc
    have hne := blt_irrefl_ne b a hblt
    have hble := ble_of_blt b a hblt
    obtain ⟨k, hk⟩ := ble_reach_aux a ha (dateRank a - dateRank b).toNat b hb hble (le_refl _)
    have hd := succN_toDays k b hb
    rw [hk] at hd
    have hk0 : k ≠ 0 := by
      intro h0
      rw [h0] at hk
      exact hne hk
    omega

theorem blt_iff_toDays (a b : NaiveDate) (ha : a.isValid) (hb : b.isValid) :
    a.blt b = true ↔ a.toDays < b.toDays := by
  have h1 := ble_iff_toDays b a hb ha
  have h2 := not_ble_iff_blt b a
  constructor
  · intro h
    have hnb := h2.mpr h
    have hx : ¬ (b.toDays ≤ a.toDays) := fun hle => hnb (h1.mpr hle)
    omega
  · intro h
    apply h2.mp
    intro hc
    have := h1.mp hc
    omega

theorem toDays_inj (a b : NaiveDate) (ha : a.isValid) (hb : b.isValid)
    (h : a.toDays = b.toDays) : a = b := by
  have h1 := (ble_iff_toDays a b ha hb).mpr (le_of_eq h)
  have h2 := (ble_iff_toDays b a hb ha).mpr (le_of_eq h.symm)
  unfold NaiveDate.ble at h1 h2
  simp only [Bool.or_eq_true, Bool.and_eq_true, beq_iff_eq, decide_eq_true_eq] at h1 h2
  cases a
  cases b
  simp_all
  omega

theorem wnum_bounds (w : Weekday) : 0 ≤ wnum w ∧ wnum w < 7 := by
  cases w <;> simp [wnum]

theorem to_weekday_back_spec :
    ∀ (fuel k : Nat) (d : NaiveDate) (w : Weekday), d.isValid → k < fuel → k < 7 →
      d.weekdayNum = (wnum w + k) % 7 → to_weekday_back fuel d w = predN k d := by
  intro fuel
  induction fuel with
  | zero => intro k d w _ hk _; omega
  | succ n ih =>
    intro k d w hv hk hk7 hnum
    have hwb := wnum_bounds w
    cases k with
    | zero =>
      have h0 : d.weekdayNum = wnum w := by omega
      have : d.weekday = w := (weekday_eq_iff d w).mpr h0
      unfold to_weekday_back
      simp [this]
      rfl
    | succ j =>
      have hne : d.weekdayNum ≠ wnum w := by omega
      have : ¬ (d.weekday = w) := fun hc => hne ((weekday_eq_iff d w).mp hc)
      unfold to_weekday_back
      simp only [this, if_false]
      have hpre : d.pred.weekdayNum = (wnum w + j) % 7 := by
        rw [weekdayNum_pred d hv]
        omega
      exact ih j d.pred w (isValid_pred d hv) (by omega) (by omega) hpre

theorem to_weekday_fwd_spec :
    ∀ (fuel k : Nat) (d : NaiveDate) (w : Weekday), d.isValid → k < fuel → k < 7 →
      (d.weekdayNum + k) % 7 = wnum w → to_weekday_fwd fuel d w = succN k d := by
  intro fuel
  induction fuel with
  | zero => intro k d w _ hk _; omega
  | succ n ih =>
    intro k d w hv hk hk7 hnum
    have hwb := wnum_bounds w
    have hdb := weekdayNum_bounds d
    cases k with
    | zero =>
      have h0 : d.weekdayNum = wnum w := by omega
      have : d.weekday = w := (weekday_eq_iff d w).mpr h0
      unfold to_weekday_fwd
      simp [this]
      rfl
    | succ j =>
      have hne : d.weekdayNum ≠ wnum w := by omega
      have : ¬ (d.weekday = w) := fun hc => hne ((weekday_eq_iff d w).mp hc)
      unfold to_weekday_fwd
      simp only [this, if_false]
      have hpre : (d.succ.weekdayNum + j) % 7 = wnum w := by
        rw [weekdayNum_succ d hv]
        omega
      exact ih j d.succ w (isValid_succ d hv) (by omega) (by omega) hpre

theorem get_monday_spec (d : NaiveDate) (h : d.isValid) :
    get_monday_in_week_of d = predN d.weekdayNum.toNat d := by
  have hdb := weekdayNum_bounds d
  apply to_weekday_back_spec 7 d.weekdayNum.toNat d .mon h (by omega) (by omega)
  simp [wnum]
  omega

theorem get_sunday_spec (d : NaiveDate) (h : d.isValid) :
    get_sunday_in_week_of d = succN (6 - d.weekdayNum).toNat d := by
  have hdb := weekdayNum_bounds d
  apply to_weekday_fwd_spec 7 (6 - d.weekdayNum).toNat d .sun h (by omega) (by omega)
  simp [wnum]
  omega

theorem get_monday_isValid (d : NaiveDate) (h : d.isValid) :
    (get_monday_in_week_of d).isValid := by
  rw [get_monday_spec d h]
  exact predN_isValid _ d h

theorem get_monday_toDays (d : NaiveDate) (h : d.isValid) :
    (get_monday_in_week_of d).toDays = d.toDays - d.weekdayNum := by
  have hdb := weekdayNum_bounds d
  rw [get_monday_spec d h, predN_toDays _ d h]
  omega

theorem get_monday_weekdayNum (d : NaiveDate) (h : d.isValid) :
    (get_monday_in_week_of d).weekdayNum = 0 := by
  have h1 := get_monday_toDays d h
  have hdb := weekdayNum_bounds d
  unfold NaiveDate.weekdayNum at *
  omega

theorem get_sunday_isValid (d : NaiveDate) (h : d.isValid) :
    (get_sunday_in_week_of d).isValid := by
  rw [get_sunday_spec d h]
  exact succN_isValid _ d h

theorem get_sunday_toDays (d : NaiveDate) (h : d.isValid) :
    (get_sunday_in_week_of d).toDays = d.toDays + (6 - d.weekdayNum) := by
  have hdb := weekdayNum_bounds d
  rw [get_sunday_spec d h, succN_toDays _ d h]
  omega

theorem get_sunday_weekdayNum (d : NaiveDate) (h : d.isValid) :
    (get_sunday_in_week_of d).weekdayNum = 6 := by
  have h1 := get_sunday_toDays d h
  have hdb := weekdayNum_bounds d
  unfold NaiveDate.weekdayNum at *
  omega

theorem flex_prev_week_sunday_eq (d : NaiveDate) (h : d.isValid) :
    flex_prev_week_sunday d = (get_monday_in_week_of d).pred := by
  have hdb := weekdayNum_bounds d
  unfold flex_prev_week_sunday
  rw [get_monday_spec d h]
  by_cases hs : d.weekday = Weekday.sun
  · have h6 : d.weekdayNum = 6 := (weekday_eq_iff d .sun).mp hs
    simp only [hs, if_true]
    have hstep : to_weekday_back 7 d.pred Weekday.sun = predN 6 d.pred := by
      apply to_weekday_back_spec 7 6 d.pred .sun (isValid_pred d h) (by omega) (by omega)
      rw [weekdayNum_pred d h]
      simp [wnum]
      omega
    rw [hstep, predN_pred 6 d, h6]
    rfl
  · have h6 : d.weekdayNum ≠ 6 := fun hc => hs ((weekday_eq_iff d .sun).mpr (by simp [wnum, hc]))
    simp only [hs, if_false]
    have hk : d.weekdayNum.toNat + 1 ≤ 6 := by omega
    have hstep : to_weekday_back 7 d Weekday.sun = predN (d.weekdayNum.toNat + 1) d := by
      apply to_weekday_back_spec 7 (d.weekdayNum.toNat + 1) d .sun h (by omega) (by omega)
      simp [wnum]
      omega
    rw [hstep]
    show predN d.weekdayNum.toNat d.pred = _
    rw [predN_pred _ d]

theorem get_monday_weekday (d : NaiveDate) (h : d.isValid) :
    (get_monday_in_week_of d).weekday = Weekday.mon := by
  apply (weekday_eq_iff _ _).mpr
  rw [get_monday_weekdayNum d h]
  rfl

theorem get_sunday_weekday (d : NaiveDate) (h : d.isValid) :
    (get_sunday_in_week_of d).weekday = Weekday.sun := by
  apply (weekday_eq_iff _ _).mpr
  rw [get_sunday_weekdayNum d h]
  rfl

theorem last_day_table_le_daysInMonth (d : NaiveDate) (h : d.isValid) :
    1 ≤ MONTH_2_NDAYS.getD (d.month - 1) 0 ∧
      MONTH_2_NDAYS.getD (d.month - 1) 0 ≤ daysInMonth d.year d.month := by
  obtain ⟨h1, h2, _, _⟩ := h
  have hf : 28 ≤ daysInMonth d.year 2 := daysInMonth_ge_28 d.year 2
  interval_cases hm : d.month <;> simp_all [MONTH_2_NDAYS, daysInMonth]

/-- C9: for every date, get_monday_in_week_of returns the Monday on or
before the date (the greatest such Monday) and get_sunday_in_week_of the
Sunday on or after it (the least such Sunday), both within the same
Monday-through-Sunday week; get_first_day_in_month_of returns the first
calendar day of the date's month, and get_last_day_in_month_of the day
whose number is looked up in the fixed table [31,28,31,30,31,30,31,31,30,
31,30,31], so the last day of any February is the 28th even in leap
years. -/
theorem period_boundary_helpers_spec (d : NaiveDate) (h : d.isValid) :
    ((get_monday_in_week_of d).isValid ∧
     (get_monday_in_week_of d).weekday = Weekday.mon ∧
     (get_monday_in_week_of d).ble d = true ∧
     d.toDays - (get_monday_in_week_of d).toDays < 7 ∧
     (∀ x : NaiveDate, x.isValid → x.weekday = Weekday.mon → x.ble d = true →
        x.ble (get_monday_in_week_of d) = true)) ∧
    ((get_sunday_in_week_of d).isValid ∧
     (get_sunday_in_week_of d).weekday = Weekday.sun ∧
     d.ble (get_sunday_in_week_of d) = true ∧
     (get_sunday_in_week_of d).toDays - d.toDays < 7 ∧
     (∀ x : NaiveDate, x.isValid → x.weekday = Weekday.sun → d.ble x = true →
        (get_sunday_in_week_of d).ble x = true)) ∧
    ((get_first_day_in_month_of d).year = d.year ∧
     (get_first_day_in_month_of d).month = d.month ∧
     (get_first_day_in_month_of d).day = 1 ∧
     (get_first_day_in_month_of d).isValid) ∧
    ((get_last_day_in_month_of d).year = d.year ∧
     (get_last_day_in_month_of d).month = d.month ∧
     (get_last_day_in_month_of d).day =
       [31, 28, 31, 30, 31, 30, 31, 31, 30, 31, 30, 31].getD (d.month - 1) 0 ∧
     (get_last_day_in_month_of d).isValid ∧
     (d.month = 2 → (get_last_day_in_month_of d).day = 28)) := by
  have hdb := weekdayNum_bounds d
  have hmv := get_monday_isValid d h
  have hsv := get_sunday_isValid d h
  have hmd := get_monday_toDays d h
  have hsd := get_sunday_toDays d h
  refine ⟨⟨hmv, get_monday_weekday d h, ?_, by omega, ?_⟩,
          ⟨hsv, get_sunday_weekday d h, ?_, by omega, ?_⟩, ⟨rfl, rfl, rfl, ?_⟩,
          ⟨rfl, rfl, rfl, ?_, ?_⟩⟩
  · rw [ble_iff_toDays _ _ hmv h]
    omega
  · intro x hxv hxw hxle
    rw [ble_iff_toDays _ _ hxv h] at hxle
    rw [ble_iff_toDays _ _ hxv hmv]
    have hx0 : x.weekdayNum = 0 := (weekday_eq_iff x .mon).mp hxw
    unfold NaiveDate.weekdayNum at *
    omega
  · rw [ble_iff_toDays _ _ h hsv]
    omega
  · intro x hxv hxw hxle
    rw [ble_iff_toDays _ _ h hxv] at hxle
    rw [ble_iff_toDays _ _ hsv hxv]
    have hx6 : x.weekdayNum = 6 := (weekday_eq_iff x .sun).mp hxw
    unfold NaiveDate.weekdayNum at *
    omega
  · obtain ⟨h1, h2, h3, h4⟩ := h
    have hdim : 1 ≤ daysInMonth d.year d.month := by
      have := daysInMonth_ge_28 d.year d.month
      omega
    exact ⟨h1, h2, Nat.le_refl 1, hdim⟩
  · obtain ⟨ht1, ht2⟩ := last_day_table_le_daysInMonth d h
    obtain ⟨h1, h2, h3, h4⟩ := h
    exact ⟨h1, h2, ht1, ht2⟩
  · intro hm2
    unfold get_last_day_in_month_of
    rw [hm2]
    rfl

/-- Witness for period_boundary_helpers_spec at 2016-02-11 (a leap
year). -/
theorem period_boundary_helpers_spec_witness :
    (⟨2016, 2, 11⟩ : NaiveDate).isValid ∧
    ((get_monday_in_week_of ⟨2016, 2, 11⟩).isValid ∧
     (get_monday_in_week_of ⟨2016, 2, 11⟩).weekday = Weekday.mon ∧
     (get_monday_in_week_of ⟨2016, 2, 11⟩).ble ⟨2016, 2, 11⟩ = true ∧
     (⟨2016, 2, 11⟩ : NaiveDate).toDays - (get_monday_in_week_of ⟨2016, 2, 11⟩).toDays < 7 ∧
     (∀ x : NaiveDate, x.isValid → x.weekday = Weekday.mon → x.ble ⟨2016, 2, 11⟩ = true →
        x.ble (get_monday_in_week_of ⟨2016, 2, 11⟩) = true)) ∧
    ((get_sunday_in_week_of ⟨2016, 2, 11⟩).isValid ∧
     (get_sunday_in_week_of ⟨2016, 2, 11⟩).weekday = Weekday.sun ∧
     (⟨2016, 2, 11⟩ : NaiveDate).ble (get_sunday_in_week_of ⟨2016, 2, 11⟩) = true ∧
     (get_sunday_in_week_of ⟨2016, 2, 11⟩).toDays - (⟨2016, 2, 11⟩ : NaiveDate).toDays < 7 ∧
     (∀ x : NaiveDate, x.isValid → x.weekday = Weekday.sun →
        (⟨2016, 2, 11⟩ : NaiveDate).ble x = true →
        (get_sunday_in_week_of ⟨2016, 2, 11⟩).ble x = true)) ∧
    ((get_first_day_in_month_of ⟨2016, 2, 11⟩).year = 2016 ∧
     (get_first_day_in_month_of ⟨2016, 2, 11⟩).month = 2 ∧
     (get_first_day_in_month_of ⟨2016, 2, 11⟩).day = 1 ∧
     (get_first_day_in_month_of ⟨2016, 2, 11⟩).isValid) ∧
    ((get_last_day_in_month_of ⟨2016, 2, 11⟩).year = 2016 ∧
     (get_last_day_in_month_of ⟨2016, 2, 11⟩).month = 2 ∧
     (get_last_day_in_month_of ⟨2016, 2, 11⟩).day =
       [31, 28, 31, 30, 31, 30, 31, 31, 30, 31, 30, 31].getD (2 - 1) 0 ∧
     (get_last_day_in_month_of ⟨2016, 2, 11⟩).isValid ∧
     ((2 : Nat) = 2 → (get_last_day_in_month_of ⟨2016, 2, 11⟩).day = 28)) :=
  ⟨by decide, period_boundary_helpers_spec ⟨2016, 2, 11⟩ (by decide)⟩

theorem logged_time_foldl_aux (l : List TimeLogEntry) (etype : TimeLogEntryType)
    (acc : Duration) :
    l.foldl
      (fun sum e =>
        match e.start, e.stop with
        | some start, some stop =>
            if e.entry_type = etype then sum + stop.signed_duration_since start else sum
        | _, _ => sum)
      acc =
    acc + ((l.filter (fun e => e.entry_type = etype && e.start.isSome && e.stop.isSome)).map
      (fun e => (e.stop.getD ⟨0, 0, 0⟩).signed_duration_since (e.start.getD ⟨0, 0, 0⟩))).sum := by
  induction l generalizing acc with
  | nil => simp
  | cons e rest ih =>
    obtain ⟨es, est, ety, ed⟩ := e
    cases es <;> cases est <;> by_cases hty : ety = etype <;>
      simp_all [List.filter, Option.getD, NaiveTime.signed_duration_since] <;> ring

/-- C4 counterexample: a day holding a single full-day Vacation entry (no
bounds) logs zero Vacation time, not a full 8-hour workday; logged_time
has no special case for non-Work categories. -/
theorem logged_time_nonwork_counterexample :
    TimeLogDay.logged_time
        ⟨⟨2017, 12, 18⟩, [⟨none, none, .Vacation, ⟨2017, 12, 18⟩⟩]⟩ .Vacation =
      Duration.seconds 0 ∧
    Duration.seconds 0 ≠ Duration.hours 8 := by
  constructor
  · rfl
  · decide

/-- C4 (amended): for every Day and entry type, logged_time sums
end - start over the day's entries of that type that have both bounds set;
an entry missing either bound contributes nothing, for Work and non-Work
types alike (a day containing Work 06:31:00-07:00:00 and Work
07:31:00-UNDEF logs exactly 29 minutes of Work). -/
theorem logged_time_spec (day : TimeLogDay) (etype : TimeLogEntryType) :
    day.logged_time etype =
      ((day.entries.filter
          (fun e => e.entry_type = etype && e.start.isSome && e.stop.isSome)).map
        (fun e => (e.stop.getD ⟨0, 0, 0⟩).signed_duration_since
          (e.start.getD ⟨0, 0, 0⟩))).sum ∧
    compute_logged_time_between exampleLedgerScenarioMon ⟨2017, 12, 18⟩ ⟨2017, 12, 18⟩
        TimeLogEntryType.Work = Duration.minutes 29 := by
  constructor
  · unfold TimeLogDay.logged_time
    rw [logged_time_foldl_aux]
    simp [Duration.seconds]
  · decide

/-- C10 counterexample: for the Work entries a = 12:00:00-13:00:00 and
b = 13:00:00-14:00:00 (a's end equals b's start), the comparator returns
Equal rather than placing a strictly before b, and comparing the two
arguments in the opposite order returns Greater, so the results are
neither opposite nor both equal. -/
theorem entry_cmp_counterexample :
    TimeLogEntry.cmp
        ⟨some ⟨12, 0, 0⟩, some ⟨13, 0, 0⟩, .Work, ⟨2017, 12, 18⟩⟩
        ⟨some ⟨13, 0, 0⟩, some ⟨14, 0, 0⟩, .Work, ⟨2017, 12, 18⟩⟩ = Ordering.eq ∧
    TimeLogEntry.cmp
        ⟨some ⟨13, 0, 0⟩, some ⟨14, 0, 0⟩, .Work, ⟨2017, 12, 18⟩⟩
        ⟨some ⟨12, 0, 0⟩, some ⟨13, 0, 0⟩, .Work, ⟨2017, 12, 18⟩⟩ = Ordering.gt ∧
    (some (⟨13, 0, 0⟩ : NaiveTime) = some (⟨13, 0, 0⟩ : NaiveTime)) := by
  exact ⟨by decide, by decide, rfl⟩

/-- C10 (amended): the comparator's arms, in order: when a's end and b's
start are both defined, a and b compare as a.end versus b.start (equal
bounds give Equal, not strictly-before); otherwise, when a's start and b's
end are both defined, as a.start versus b.end; otherwise by start;
otherwise by end; otherwise by the entry type's ordinal.  Because the
first two arms compare different fields of the two arguments, swapping the
arguments need not yield the opposite result. -/
theorem entry_cmp_spec (a b : TimeLogEntry) :
    (∀ e s, a.stop = some e → b.start = some s → a.cmp b = NaiveTime.cmp e s) ∧
    ((a.stop = none ∨ b.start = none) →
      ∀ s e, a.start = some s → b.stop = some e → a.cmp b = NaiveTime.cmp s e) ∧
    ((a.stop = none ∨ b.start = none) → (a.start = none ∨ b.stop = none) →
      ∀ s0 s1, a.start = some s0 → b.start = some s1 → a.cmp b = NaiveTime.cmp s0 s1) ∧
    ((a.stop = none ∨ b.start = none) → (a.start = none ∨ b.stop = none) →
      (a.start = none ∨ b.start = none) →
      ∀ e0 e1, a.stop = some e0 → b.stop = some e1 → a.cmp b = NaiveTime.cmp e0 e1) ∧
    ((a.stop = none ∨ b.start = none) → (a.start = none ∨ b.stop = none) →
      (a.start = none ∨ b.start = none) → (a.stop = none ∨ b.stop = none) →
      a.cmp b = compare a.entry_type.ordinal b.entry_type.ordinal) := by
  obtain ⟨as_, ast, aty, ad⟩ := a
  obtain ⟨bs, bst, bty, bd⟩ := b
  cases as_ <;> cases ast <;> cases bs <;> cases bst <;>
    refine ⟨?_, ?_, ?_, ?_, ?_⟩ <;> intros <;> simp_all [TimeLogEntry.cmp]

/-- Witness for entry_cmp_spec: its first arm applied to the
counterexample pair of entries. -/
theorem entry_cmp_spec_witness :
    TimeLogEntry.cmp
        ⟨some ⟨12, 0, 0⟩, some ⟨13, 0, 0⟩, .Work, ⟨2017, 12, 18⟩⟩
        ⟨some ⟨13, 0, 0⟩, some ⟨14, 0, 0⟩, .Work, ⟨2017, 12, 18⟩⟩ =
      NaiveTime.cmp ⟨13, 0, 0⟩ ⟨13, 0, 0⟩ :=
  (entry_cmp_spec _ _).1 ⟨13, 0, 0⟩ ⟨13, 0, 0⟩ rfl rfl

theorem ble_refl (a : NaiveDate) : a.ble a = true := by
  unfold NaiveDate.ble
  simp

theorem ble_trans (a b c : NaiveDate) (h1 : a.ble b = true) (h2 : b.ble c = true) :
    a.ble c = true := by
  unfold NaiveDate.ble at *
  simp only [Bool.or_eq_true, Bool.and_eq_true, beq_iff_eq, decide_eq_true_eq] at *
  omega

theorem time_between_aux_eq_range (tl : TimeLogger)
    (getter : TimeLogDay → TimeLogEntryType → Duration) (defaultDur : Duration)
    (aw : Bool) (etype : TimeLogEntryType) :
    ∀ (n : Nat) (d1 d2 : NaiveDate),
      time_between_aux tl getter defaultDur aw etype n d1 d2 =
        ((dateRangeAux n d1 d2).map
          (time_between_step tl getter defaultDur aw etype)).sum := by
  intro n
  induction n with
  | zero => intro d1 d2; rfl
  | succ m ih =>
    intro d1 d2
    unfold time_between_aux dateRangeAux
    by_cases hle : d1.ble d2 = true
    · simp only [hle, if_true, List.map_cons, List.sum_cons]
      rw [ih d1.succ d2]
      rfl
    · simp only [hle, if_false]
      simp [Duration.seconds]

theorem sum_map_filter_ite (l : List NaiveDate) (p : NaiveDate → Bool)
    (f : NaiveDate → Int) :
    (l.map (fun x => if p x then f x else 0)).sum = ((l.filter p).map f).sum := by
  induction l with
  | nil => rfl
  | cons x rest ih =>
    by_cases hp : p x = true <;> simp [List.filter, hp, ih]

theorem dateRangeAux_mem (d2 : NaiveDate) (h2 : d2.isValid) :
    ∀ (n : Nat) (d1 : NaiveDate), d1.isValid → gapFuel d1 d2 ≤ n →
      ∀ x : NaiveDate,
        x ∈ dateRangeAux n d1 d2 ↔ x.isValid ∧ d1.ble x = true ∧ x.ble d2 = true := by
  intro n
  induction n with
  | zero =>
    intro d1 h1 hf x
    unfold gapFuel at hf
    simp only [dateRangeAux, List.not_mem_nil, false_iff]
    rintro ⟨hxv, hx1, hx2⟩
    have g1 := toDays_le_of_ble d1 x h1 hxv hx1
    have g2 := toDays_le_of_ble x d2 hxv h2 hx2
    omega
  | succ m ih =>
    intro d1 h1 hf x
    unfold dateRangeAux
    by_cases hle : d1.ble d2 = true
    · have hd12 := toDays_le_of_ble d1 d2 h1 h2 hle
      have hsv := isValid_succ d1 h1
      have hst := toDays_succ d1 h1
      have hfs : gapFuel d1.succ d2 ≤ m := by
        unfold gapFuel at *
        omega
      simp only [hle, if_true, List.mem_cons, ih d1.succ hsv hfs x]
      constructor
      · rintro (rfl | ⟨hxv, hx1, hx2⟩)
        · exact ⟨h1, ble_refl x, hle⟩
        · have := toDays_le_of_ble d1.succ x hsv hxv hx1
          refine ⟨hxv, ?_, hx2⟩
          rw [ble_iff_toDays d1 x h1 hxv]
          omega
      · rintro ⟨hxv, hx1, hx2⟩
        by_cases hxeq : x = d1
        · exact Or.inl hxeq
        · right
          refine ⟨hxv, ?_, hx2⟩
          have hlt := toDays_le_of_ble d1 x h1 hxv hx1
          have hne : d1.toDays ≠ x.toDays := fun hc => hxeq (toDays_inj x d1 hxv h1 hc.symm)
          rw [ble_iff_toDays d1.succ x hsv hxv]
          omega
    · have hblt := (not_ble_iff_blt d1 d2).mp hle
      rw [Bool.not_eq_true] at hle
      simp only [hle, Bool.false_eq_true, if_false, List.not_mem_nil, false_iff]
      rintro ⟨hxv, hx1, hx2⟩
      have g1 := toDays_le_of_ble d1 x h1 hxv hx1
      have g2 := toDays_le_of_ble x d2 hxv h2 hx2
      have g3 := (blt_iff_toDays d2 d1 h2 h1).mp hblt
      omega

theorem blt_irrefl (a : NaiveDate) : a.blt a = false := by
  unfold NaiveDate.blt
  simp

theorem dateRangeAux_nil (n : Nat) (d1 d2 : NaiveDate) (h : d1.ble d2 = false) :
    dateRangeAux n d1 d2 = [] := by
  cases n <;> simp [dateRangeAux, h]

theorem weekday_sat_not_weekday (d : NaiveDate) (h : d.weekday = Weekday.sat) :
    is_weekday d = false := by
  unfold is_weekday
  simp [h]

theorem loggable_between_eq_filtered_sum (tl : TimeLogger) (d1 d2 : NaiveDate)
    (etype : TimeLogEntryType) :
    compute_loggable_time_between tl d1 d2 etype =
      (((dateRange d1 d2).filter (fun x => is_weekday x)).map
        (fun x =>
          match date2logday tl x with
          | some day => day.loggable_time etype
          | none => Duration.hours 8)).sum := by
  unfold compute_loggable_time_between
  by_cases hlt : d2.blt d1 = true
  · have hnb := (not_ble_iff_blt d1 d2).mpr hlt
    simp only [Bool.not_eq_true] at hnb
    rw [dateRange, dateRangeAux_nil _ _ _ hnb]
    simp [hlt, Duration.seconds]
  · simp only [hlt, if_false]
    rw [time_between_aux_eq_range, dateRange, ← sum_map_filter_ite]
    simp only [Bool.false_eq_true, if_false]
    apply congrArg List.sum
    apply List.map_congr_left
    intro x _
    unfold time_between_step
    simp [Duration.seconds]

/-- C6: for valid dates d1 <= d2 and any entry type,
compute_loggable_time_between sums, over exactly the weekdays of the
closed range [d1, d2], the recorded day's loggable_time, counting 8 hours
for every weekday with no Day record; it returns a zero duration when
d1 > d2; it is zero over a Saturday-Sunday pair, and exactly 8 hours over
a single unrecorded weekday. -/
theorem compute_loggable_time_between_spec (tl : TimeLogger) (d1 d2 : NaiveDate)
    (etype : TimeLogEntryType) (h1 : d1.isValid) (h2 : d2.isValid) :
    compute_loggable_time_between tl d1 d2 etype =
      (((dateRange d1 d2).filter (fun x => is_weekday x)).map
        (fun x =>
          match date2logday tl x with
          | some day => day.loggable_time etype
          | none => Duration.hours 8)).sum ∧
    (∀ x : NaiveDate, x ∈ dateRange d1 d2 ↔ x.isValid ∧ d1.ble x = true ∧ x.ble d2 = true) ∧
    (d2.blt d1 = true → compute_loggable_time_between tl d1 d2 etype = Duration.seconds 0) ∧
    (d1.weekday = Weekday.sat → d2 = d1.succ →
      compute_loggable_time_between tl d1 d2 etype = Duration.seconds 0) ∧
    (is_weekday d1 = true → date2logday tl d1 = none →
      compute_loggable_time_between tl d1 d1 etype = Duration.hours 8) := by
  refine ⟨loggable_between_eq_filtered_sum tl d1 d2 etype,
    dateRangeAux_mem d2 h2 (gapFuel d1 d2) d1 h1 (le_refl _), ?_, ?_, ?_⟩
  · intro hlt
    unfold compute_loggable_time_between
    simp [hlt]
  · intro hsat hsucc
    rw [loggable_between_eq_filtered_sum tl d1 d2 etype]
    have hfil : (dateRange d1 d2).filter (fun x => is_weekday x) = [] := by
      rw [List.filter_eq_nil_iff]
      intro x hx
      rw [dateRange] at hx
      rw [dateRangeAux_mem d2 h2 (gapFuel d1 d2) d1 h1 (le_refl _) x] at hx
      obtain ⟨hxv, hx1, hx2⟩ := hx
      have g1 := toDays_le_of_ble d1 x h1 hxv hx1
      have g2 := toDays_le_of_ble x d2 hxv h2 hx2
      have hst : d2.toDays = d1.toDays + 1 := by
        rw [hsucc, toDays_succ d1 h1]
      have h5 : d1.weekdayNum = 5 := (weekday_eq_iff d1 .sat).mp hsat
      rcases (by omega : x.toDays = d1.toDays ∨ x.toDays = d1.toDays + 1) with hx | hx
      · have : x = d1 := toDays_inj x d1 hxv h1 hx
        rw [this, weekday_sat_not_weekday d1 hsat]
        simp
      · have : x = d2 := toDays_inj x d2 hxv h2 (by omega)
        have h6 : x.weekdayNum = 6 := by
          unfold NaiveDate.weekdayNum at *
          omega
        have : x.weekday = Weekday.sun := (weekday_eq_iff x .sun).mpr h6
        unfold is_weekday
        simp [this]
    rw [hfil]
    rfl
  · intro hwk hnone
    unfold compute_loggable_time_between
    rw [blt_irrefl d1]
    have hf : gapFuel d1 d1 = 1 := by
      unfold gapFuel
      omega
    rw [hf]
    unfold time_between_aux
    rw [ble_refl d1]
    simp [hwk, hnone, time_between_aux, Duration.seconds]

/-- Witness for compute_loggable_time_between_spec at the weekend pair
2017-12-16 (Saturday) and 2017-12-17 (Sunday) over an empty ledger. -/
theorem compute_loggable_time_between_spec_witness :
    (⟨2017, 12, 16⟩ : NaiveDate).isValid ∧ (⟨2017, 12, 17⟩ : NaiveDate).isValid ∧
    (compute_loggable_time_between [] ⟨2017, 12, 16⟩ ⟨2017, 12, 17⟩ TimeLogEntryType.Work =
      (((dateRange ⟨2017, 12, 16⟩ ⟨2017, 12, 17⟩).filter (fun x => is_weekday x)).map
        (fun x =>
          match date2logday [] x with
          | some day => day.loggable_time TimeLogEntryType.Work
          | none => Duration.hours 8)).sum ∧
    (∀ x : NaiveDate, x ∈ dateRange ⟨2017, 12, 16⟩ ⟨2017, 12, 17⟩ ↔
      x.isValid ∧ (⟨2017, 12, 16⟩ : NaiveDate).ble x = true ∧ x.ble ⟨2017, 12, 17⟩ = true) ∧
    ((⟨2017, 12, 17⟩ : NaiveDate).blt ⟨2017, 12, 16⟩ = true →
      compute_loggable_time_between [] ⟨2017, 12, 16⟩ ⟨2017, 12, 17⟩ TimeLogEntryType.Work =
        Duration.seconds 0) ∧
    ((⟨2017, 12, 16⟩ : NaiveDate).weekday = Weekday.sat →
      (⟨2017, 12, 17⟩ : NaiveDate) = (⟨2017, 12, 16⟩ : NaiveDate).succ →
      compute_loggable_time_between [] ⟨2017, 12, 16⟩ ⟨2017, 12, 17⟩ TimeLogEntryType.Work =
        Duration.seconds 0) ∧
    (is_weekday ⟨2017, 12, 16⟩ = true → date2logday [] ⟨2017, 12, 16⟩ = none →
      compute_loggable_time_between [] ⟨2017, 12, 16⟩ ⟨2017, 12, 16⟩ TimeLogEntryType.Work =
        Duration.hours 8)) :=
  ⟨by decide, by decide,
    compute_loggable_time_between_spec [] ⟨2017, 12, 16⟩ ⟨2017, 12, 17⟩ TimeLogEntryType.Work
      (by decide) (by decide)⟩

theorem minLedgerKey_none_iff (tl : TimeLogger) : minLedgerKey tl = none ↔ tl = [] := by
  cases tl with
  | nil => simp [minLedgerKey]
  | cons p rest =>
    simp only [minLedgerKey]
    cases minLedgerKey rest <;> simp <;> split <;> simp

theorem minLedgerKey_le (tl : TimeLogger) (s : NaiveDate) (h : minLedgerKey tl = some s) :
    s ∈ tl.map Prod.fst ∧ ∀ k ∈ tl.map Prod.fst, s.ble k = true := by
  induction tl generalizing s with
  | nil => simp [minLedgerKey] at h
  | cons p rest ih =>
    simp only [minLedgerKey] at h
    cases hr : minLedgerKey rest with
    | none =>
      rw [hr] at h
      have hempty := (minLedgerKey_none_iff rest).mp hr
      subst hempty
      simp only [Option.some.injEq] at h
      subst h
      simp [ble_refl]
    | some m =>
      rw [hr] at h
      obtain ⟨hmem, hle⟩ := ih m hr
      by_cases hc : (p.1).ble m = true
      · simp only [hc, if_true, Option.some.injEq] at h
        rw [← h]
        refine ⟨by simp, ?_⟩
        intro k hk
        simp only [List.map_cons, List.mem_cons] at hk
        rcases hk with rfl | hk
        · exact ble_refl _
        · exact ble_trans _ m k hc (hle k hk)
      · have hc2 : p.1.ble m = false := by
          rw [← Bool.not_eq_true]
          exact hc
        simp only [hc2, Bool.false_eq_true, if_false, Option.some.injEq] at h
        rw [← h]
        have hpm : (m.ble p.1) = true := by
          rcases ble_total p.1 m with hx | hx
          · exact absurd hx hc
          · exact hx
        refine ⟨by simp [hmem], ?_⟩
        intro k hk
        simp only [List.map_cons, List.mem_cons] at hk
        rcases hk with rfl | hk
        · exact hpm
        · exact hle k hk

/-- C1: flextime_as_of is zero on an empty ledger; on a non-empty ledger
with earliest recorded date s, writing p for the Sunday that ends the week
immediately preceding the week containing the reference date (the day
before that week's Monday), flextime_as_of is zero when p <= s and
otherwise equals compute_loggable_time_between(s, p, Work) minus the sum
over every entry type of compute_logged_time_between(s, p, t). -/
theorem flextime_as_of_spec (tl : TimeLogger) (d : NaiveDate) (h : d.isValid) :
    (tl = [] → flextime_as_of tl d = Duration.hours 0) ∧
    (∀ s : NaiveDate, minLedgerKey tl = some s →
      (s ∈ tl.map Prod.fst ∧ ∀ k ∈ tl.map Prod.fst, s.ble k = true) ∧
      flex_prev_week_sunday d = (get_monday_in_week_of d).pred ∧
      (flex_prev_week_sunday d).weekday = Weekday.sun ∧
      ((get_monday_in_week_of d).pred.ble s = true → flextime_as_of tl d = Duration.hours 0) ∧
      ((get_monday_in_week_of d).pred.ble s = false →
        flextime_as_of tl d =
          compute_loggable_time_between tl s (get_monday_in_week_of d).pred
              TimeLogEntryType.Work -
            (TimeLogEntryType.iterator.map
              (fun t => compute_logged_time_between tl s (get_monday_in_week_of d).pred t)).foldl
              (· + ·) (Duration.hours 0))) := by
  have hpw := flex_prev_week_sunday_eq d h
  have hmv := get_monday_isValid d h
  have hm0 := get_monday_weekdayNum d h
  constructor
  · intro hempty
    subst hempty
    rfl
  · intro s hs
    refine ⟨minLedgerKey_le tl s hs, hpw, ?_, ?_, ?_⟩
    · rw [hpw]
      apply (weekday_eq_iff _ _).mpr
      rw [weekdayNum_pred _ hmv, hm0]
      rfl
    · intro hble
      unfold flextime_as_of
      simp only [hs, hpw, hble, if_true]
    · intro hble
      unfold flextime_as_of
      simp only [hs, hpw, hble, Bool.false_eq_true, if_false]

/-- Witness for flextime_as_of_spec: the January example ledger with
reference date 2018-01-10 (earliest date 2018-01-01, previous-week Sunday
2018-01-07). -/
theorem flextime_as_of_spec_witness :
    flextime_as_of exampleLedgerJan ⟨2018, 1, 10⟩ =
      compute_loggable_time_between exampleLedgerJan ⟨2018, 1, 1⟩ ⟨2018, 1, 7⟩
          TimeLogEntryType.Work -
        (TimeLogEntryType.iterator.map
          (fun t => compute_logged_time_between exampleLedgerJan ⟨2018, 1, 1⟩ ⟨2018, 1, 7⟩ t)).foldl
          (· + ·) (Duration.hours 0) :=
  ((flextime_as_of_spec exampleLedgerJan ⟨2018, 1, 10⟩ (by decide)).2
    ⟨2018, 1, 1⟩ (by decide)).2.2.2.2 (by decide)

theorem to_weekday_back_fix (n : Nat) (d : NaiveDate) (w : Weekday) (h : d.weekday = w) :
    to_weekday_back (n + 1) d w = d := by
  unfold to_weekday_back
  simp [h]

theorem get_monday_idem (d : NaiveDate) (h : d.isValid) :
    get_monday_in_week_of (get_monday_in_week_of d) = get_monday_in_week_of d := by
  have hw := get_monday_weekday d h
  show to_weekday_back 7 (get_monday_in_week_of d) .mon = get_monday_in_week_of d
  exact to_weekday_back_fix 6 _ _ hw

theorem flextime_week_invariant (tl : TimeLogger) (d : NaiveDate) (h : d.isValid) :
    flextime_as_of tl (get_monday_in_week_of d) = flextime_as_of tl d := by
  unfold flextime_as_of
  rw [flex_prev_week_sunday_eq d h,
    flex_prev_week_sunday_eq (get_monday_in_week_of d) (get_monday_isValid d h),
    get_monday_idem d h]

/-- C3 counterexample: on the January example ledger with reference date
2018-01-10, time_left_in_month_of_with reports the flex component 33 hours
(the flex as of the query date), while the flex as of the month's first
day 2018-01-01 is zero, so the month variant does not use the flex
computed as of the period's start date. -/
theorem time_left_month_flex_counterexample :
    time_left_in_month_of_with exampleLedgerJan ⟨2018, 1, 10⟩ none =
      TLOutcome.value (.ok (Duration.hours 202, Duration.hours 33)) ∧
    flextime_as_of exampleLedgerJan (get_first_day_in_month_of ⟨2018, 1, 10⟩) =
      Duration.hours 0 ∧
    Duration.hours 33 ≠ Duration.hours 0 :=
  ⟨by decide, by decide, by decide⟩

/-- C3 (amended): when the logged-time query succeeds with value x,
time_left_in_{week,month}_of_with returns the pair
(loggable(period) - x + flex, flex) where flex is flextime_as_of evaluated
at the query date itself; for the week variant this coincides with the
flex as of the period's start (the Monday of the date's week), while the
month variant also uses the flex as of the query date, not of the month's
first day. -/
theorem time_left_in_timeperiod_with_spec (tl : TimeLogger) (d : NaiveDate)
    (w : Option NaiveTime) (x : Duration) (h : d.isValid) :
    (time_logged_in_week_of_with tl d w = .value (.ok x) →
      time_left_in_week_of_with tl d w =
        .value (.ok (compute_loggable_time_in_week_of tl d TimeLogEntryType.Work - x +
            flextime_as_of tl d, flextime_as_of tl d)) ∧
      flextime_as_of tl (get_monday_in_week_of d) = flextime_as_of tl d) ∧
    (time_logged_in_month_of_with tl d w = .value (.ok x) →
      time_left_in_month_of_with tl d w =
        .value (.ok (compute_loggable_time_in_month_of tl d TimeLogEntryType.Work - x +
            flextime_as_of tl d, flextime_as_of tl d))) := by
  constructor
  · intro hq
    refine ⟨?_, flextime_week_invariant tl d h⟩
    unfold time_left_in_week_of_with
    rw [hq]
  · intro hq
    unfold time_left_in_month_of_with
    rw [hq]

/-- Witness for time_left_in_timeperiod_with_spec: the January ledger at
2018-01-10 with no provisional time; the week of the date logs 8 hours. -/
theorem time_left_in_timeperiod_with_spec_witness :
    time_left_in_week_of_with exampleLedgerJan ⟨2018, 1, 10⟩ none =
      TLOutcome.value (.ok
        (compute_loggable_time_in_week_of exampleLedgerJan ⟨2018, 1, 10⟩ TimeLogEntryType.Work -
            Duration.hours 8 + flextime_as_of exampleLedgerJan ⟨2018, 1, 10⟩,
          flextime_as_of exampleLedgerJan ⟨2018, 1, 10⟩)) ∧
    flextime_as_of exampleLedgerJan (get_monday_in_week_of ⟨2018, 1, 10⟩) =
      flextime_as_of exampleLedgerJan ⟨2018, 1, 10⟩ :=
  (time_left_in_timeperiod_with_spec exampleLedgerJan ⟨2018, 1, 10⟩ none
    (Duration.hours 8) (by decide)).1 (by decide)

theorem succ_not_ble_self (d : NaiveDate) (h : d.isValid) : d.succ.ble d = false := by
  rw [← Bool.not_eq_true]
  intro hc
  have := toDays_le_of_ble d.succ d (isValid_succ d h) h hc
  rw [toDays_succ d h] at this
  omega

theorem dateRange_cons (d1 d2 : NaiveDate) (h1 : d1.isValid) (h2 : d2.isValid)
    (hle : d1.ble d2 = true) : dateRange d1 d2 = d1 :: dateRange d1.succ d2 := by
  have hdiff := toDays_le_of_ble d1 d2 h1 h2 hle
  have hst := toDays_succ d1 h1
  have hgap : gapFuel d1 d2 = gapFuel d1.succ d2 + 1 := by
    unfold gapFuel
    omega
  rw [dateRange, hgap]
  unfold dateRangeAux
  rw [hle]
  rfl

theorem dateRange_nil (d1 d2 : NaiveDate) (h : d1.ble d2 = false) :
    dateRange d1 d2 = [] := dateRangeAux_nil _ _ _ h

theorem last_entries_aux_eq (tl : TimeLogger) (endd : NaiveDate) (he : endd.isValid) :
    ∀ (n : Nat) (cur : NaiveDate), cur.isValid → cur.ble endd = true →
      (endd.toDays - cur.toDays).toNat ≤ n →
      last_entries_aux tl n cur endd = last_recorded_run_end tl cur endd := by
  have hbase : ∀ c : NaiveDate, c.isValid → last_recorded_run_end tl c c = c := by
    intro c hc
    unfold last_recorded_run_end
    rw [dateRange_nil _ _ (succ_not_ble_self c hc)]
    rfl
  intro n
  induction n with
  | zero =>
    intro cur hc hle hn
    have hd := toDays_le_of_ble cur endd hc he hle
    have hceq : cur = endd := toDays_inj cur endd hc he (by omega)
    subst hceq
    rw [hbase cur hc]
    rfl
  | succ n ih =>
    intro cur hc hle hn
    by_cases hceq : cur = endd
    · subst hceq
      rw [hbase cur hc]
      unfold last_entries_aux
      simp
    · have hblt := blt_of_ble_ne cur endd hle hceq
      have hcd := (blt_iff_toDays cur endd hc he).mp hblt
      have hsv := isValid_succ cur hc
      have hst := toDays_succ cur hc
      have hsle : cur.succ.ble endd = true := by
        rw [ble_iff_toDays _ _ hsv he]
        omega
      have hrange := dateRange_cons cur.succ endd hsv he hsle
      unfold last_entries_aux
      by_cases hlook : (date2logday tl cur.succ).isSome = true
      · have hcond : (date2logday tl cur.succ).isSome = true ∧ cur ≠ endd := ⟨hlook, hceq⟩
        rw [if_pos hcond]
        rw [ih cur.succ hsv hsle (by omega)]
        unfold last_recorded_run_end
        rw [hrange]
        rw [List.takeWhile_cons]
        simp only [hlook, if_true]
        cases htw : (dateRange cur.succ.succ endd).takeWhile
            (fun x => (date2logday tl x).isSome) with
        | nil => simp
        | cons y ys =>
          cases hgl : (y :: ys).getLast? with
          | none => simp at hgl
          | some z => rw [List.getLast?_cons_cons, hgl]
      · have hcond : ¬ ((date2logday tl cur.succ).isSome = true ∧ cur ≠ endd) := by
          intro hcon
          exact hlook hcon.1
        rw [if_neg hcond]
        unfold last_recorded_run_end
        rw [hrange]
        rw [List.takeWhile_cons]
        simp only [hlook]
        simp [Bool.not_eq_true] at hlook
        simp [hlook]

theorem monday_ble_sunday (d : NaiveDate) (h : d.isValid) :
    (get_monday_in_week_of d).ble (get_sunday_in_week_of d) = true := by
  have h1 := get_monday_toDays d h
  have h2 := get_sunday_toDays d h
  have hdb := weekdayNum_bounds d
  rw [ble_iff_toDays _ _ (get_monday_isValid d h) (get_sunday_isValid d h)]
  omega

theorem first_day_isValid (d : NaiveDate) (h : d.isValid) :
    (get_first_day_in_month_of d).isValid := by
  obtain ⟨h1, h2, h3, h4⟩ := h
  have hdim : 1 ≤ daysInMonth d.year d.month := by
    have := daysInMonth_ge_28 d.year d.month
    omega
  exact ⟨h1, h2, Nat.le_refl 1, hdim⟩

theorem last_day_isValid (d : NaiveDate) (h : d.isValid) :
    (get_last_day_in_month_of d).isValid := by
  obtain ⟨ht1, ht2⟩ := last_day_table_le_daysInMonth d h
  obtain ⟨h1, h2, h3, h4⟩ := h
  exact ⟨h1, h2, ht1, ht2⟩

theorem first_ble_last (d : NaiveDate) (h : d.isValid) :
    (get_first_day_in_month_of d).ble (get_last_day_in_month_of d) = true := by
  obtain ⟨ht1, ht2⟩ := last_day_table_le_daysInMonth d h
  unfold get_first_day_in_month_of get_last_day_in_month_of NaiveDate.ble
  simp only [Bool.or_eq_true, Bool.and_eq_true, beq_iff_eq, decide_eq_true_eq]
  exact Or.inr ⟨trivial, Or.inr ⟨trivial, ht1⟩⟩

theorem last_entries_resolved (tl : TimeLogger) (sd ed : NaiveDate) (hs : sd.isValid)
    (he : ed.isValid) (hle : sd.ble ed = true) :
    last_entries_aux tl (gapFuel sd ed) sd ed = last_recorded_run_end tl sd ed := by
  apply last_entries_aux_eq tl ed he (gapFuel sd ed) sd hs hle
  have := toDays_le_of_ble sd ed hs he hle
  unfold gapFuel
  omega

/-- C2 (amended): time_logged_in_{week,month}_of_with sums logged_time
across all entry types over the resolved period; when a provisional time
is given, the day whose contribution is adjusted is not the last date in
the period that has any Day record, but the end of the run of recorded
days that starts immediately after the period's first day (capped at the
period's last day, and falling back to the first day itself when even its
successor has no record).  The ledger is indexed at that date - a missing
Day record there panics - and that day's plain logged_time(Work)
contribution is replaced by its time_logged_with(t, Work) value. -/
theorem time_logged_in_timeperiod_with_spec (tl : TimeLogger) (d : NaiveDate)
    (t : NaiveTime) (h : d.isValid) :
    (time_logged_in_week_of_with tl d none =
      TLOutcome.value (.ok (sum_logged_over_types tl (get_monday_in_week_of d)
        (get_sunday_in_week_of d)))) ∧
    (time_logged_in_week_of_with tl d (some t) =
      match date2logday tl (last_recorded_run_end tl (get_monday_in_week_of d)
          (get_sunday_in_week_of d)) with
      | none => TLOutcome.panicked
      | some tld =>
        match tld.time_logged_with (some t) TimeLogEntryType.Work with
        | .error e => TLOutcome.value (.error e)
        | .ok v => TLOutcome.value (.ok (sum_logged_over_types tl (get_monday_in_week_of d)
            (get_sunday_in_week_of d) - tld.logged_time TimeLogEntryType.Work + v))) ∧
    (time_logged_in_month_of_with tl d none =
      TLOutcome.value (.ok (sum_logged_over_types tl (get_first_day_in_month_of d)
        (get_last_day_in_month_of d)))) ∧
    (time_logged_in_month_of_with tl d (some t) =
      match date2logday tl (last_recorded_run_end tl (get_first_day_in_month_of d)
          (get_last_day_in_month_of d)) with
      | none => TLOutcome.panicked
      | some tld =>
        match tld.time_logged_with (some t) TimeLogEntryType.Work with
        | .error e => TLOutcome.value (.error e)
        | .ok v => TLOutcome.value (.ok (sum_logged_over_types tl (get_first_day_in_month_of d)
            (get_last_day_in_month_of d) - tld.logged_time TimeLogEntryType.Work + v))) := by
  refine ⟨rfl, ?_, rfl, ?_⟩
  · unfold time_logged_in_week_of_with time_logged_in_timeperiod_with
    rw [last_entries_resolved tl _ _ (get_monday_isValid d h) (get_sunday_isValid d h)
      (monday_ble_sunday d h)]
    rfl
  · unfold time_logged_in_month_of_with time_logged_in_timeperiod_with
    rw [last_entries_resolved tl _ _ (first_day_isValid d h) (last_day_isValid d h)
      (first_ble_last d h)]
    rfl

/-- Witness for time_logged_in_timeperiod_with_spec on the run-gap example
ledger at 2017-12-19. -/
theorem time_logged_in_timeperiod_with_spec_witness :
    time_logged_in_week_of_with exampleLedgerRunGap ⟨2017, 12, 19⟩ none =
      TLOutcome.value (.ok (sum_logged_over_types exampleLedgerRunGap
        (get_monday_in_week_of ⟨2017, 12, 19⟩) (get_sunday_in_week_of ⟨2017, 12, 19⟩))) :=
  (time_logged_in_timeperiod_with_spec exampleLedgerRunGap ⟨2017, 12, 19⟩ ⟨16, 0, 0⟩
    (by decide)).1

/-- C2 counterexample: on the ledger recording Monday 2017-12-18 (an open
Work entry from 08:00) and Wednesday 2017-12-20 (Work 08:00-12:00), the
week query with provisional end 16:00 adjusts Monday (the end of the run
starting at the period's first day) and returns 12 hours, while the claim,
which adjusts the last recorded date in the period (Wednesday), yields 4
hours.  The final conjuncts pin down the walk's condition: on a ledger
recording only Tuesday 2017-12-19 (Work 08:00-12:00), the same week query
succeeds with 4 hours even though the period's first day (Monday) has no
record, because the walk tests only whether the successor of the current
date is recorded and so resolves to Tuesday, the run's end. -/
theorem time_logged_adjusted_day_counterexample :
    time_logged_in_week_of_with exampleLedgerRunGap ⟨2017, 12, 18⟩ (some ⟨16, 0, 0⟩) =
      TLOutcome.value (.ok (Duration.hours 12)) ∧
    time_logged_in_week_of_with_claimed exampleLedgerRunGap ⟨2017, 12, 18⟩ (some ⟨16, 0, 0⟩) =
      some (.ok (Duration.hours 4)) ∧
    Duration.hours 12 ≠ Duration.hours 4 ∧
    time_logged_in_week_of_with
      [(⟨2017, 12, 19⟩, ⟨⟨2017, 12, 19⟩,
        [⟨some ⟨8, 0, 0⟩, some ⟨12, 0, 0⟩, .Work, ⟨2017, 12, 19⟩⟩]⟩)]
      ⟨2017, 12, 18⟩ (some ⟨16, 0, 0⟩) = TLOutcome.value (.ok (Duration.hours 4)) ∧
    date2logday
      [(⟨2017, 12, 19⟩, ⟨⟨2017, 12, 19⟩,
        [⟨some ⟨8, 0, 0⟩, some ⟨12, 0, 0⟩, .Work, ⟨2017, 12, 19⟩⟩]⟩)]
      (get_monday_in_week_of ⟨2017, 12, 18⟩) = none ∧
    last_recorded_run_end
      [(⟨2017, 12, 19⟩, ⟨⟨2017, 12, 19⟩,
        [⟨some ⟨8, 0, 0⟩, some ⟨12, 0, 0⟩, .Work, ⟨2017, 12, 19⟩⟩]⟩)]
      (get_monday_in_week_of ⟨2017, 12, 18⟩) (get_sunday_in_week_of ⟨2017, 12, 18⟩) =
      ⟨2017, 12, 19⟩ :=
  ⟨by decide, by decide, by decide, by decide, by decide, by decide⟩

theorem dateRangeAux_fuel (d2 : NaiveDate) (h2 : d2.isValid) :
    ∀ (n : Nat) (d1 : NaiveDate), d1.isValid → gapFuel d1 d2 ≤ n →
      dateRangeAux n d1 d2 = dateRange d1 d2 := by
  intro n
  induction n with
  | zero =>
    intro d1 h1 hf
    rw [dateRange]
    have hz : gapFuel d1 d2 = 0 := by omega
    rw [hz]
  | succ m ih =>
    intro d1 h1 hf
    by_cases hle : d1.ble d2 = true
    · have hsv := isValid_succ d1 h1
      have hst := toDays_succ d1 h1
      have hd12 := toDays_le_of_ble d1 d2 h1 h2 hle
      have hfs : gapFuel d1.succ d2 ≤ m := by
        unfold gapFuel at *
        omega
      rw [dateRange_cons d1 d2 h1 h2 hle]
      unfold dateRangeAux
      rw [hle]
      simp only [if_true]
      rw [ih d1.succ hsv hfs]
    · have hle2 : d1.ble d2 = false := by
        rw [← Bool.not_eq_true]
        exact hle
      rw [dateRange_nil _ _ hle2]
      unfold dateRangeAux
      simp [hle2]

theorem dateRange_nodup (d1 d2 : NaiveDate) (h1 : d1.isValid) (h2 : d2.isValid) :
    (dateRange d1 d2).Nodup := by
  rw [dateRange, ← Nat.add_zero (gapFuel d1 d2)]
  generalize hn : gapFuel d1 d2 + 0 = n
  have hf : gapFuel d1 d2 ≤ n := by omega
  clear hn
  induction n generalizing d1 with
  | zero => simp [dateRangeAux]
  | succ m ih =>
    unfold dateRangeAux
    by_cases hle : d1.ble d2 = true
    · have hsv := isValid_succ d1 h1
      have hst := toDays_succ d1 h1
      have hd12 := toDays_le_of_ble d1 d2 h1 h2 hle
      have hfs : gapFuel d1.succ d2 ≤ m := by
        unfold gapFuel at *
        omega
      simp only [hle, if_true, List.nodup_cons]
      refine ⟨?_, ih d1.succ hsv hfs⟩
      intro hmem
      rw [dateRangeAux_mem d2 h2 m d1.succ hsv hfs d1] at hmem
      obtain ⟨_, hm1, _⟩ := hmem
      have := toDays_le_of_ble d1.succ d1 hsv h1 hm1
      omega
    · simp [hle]

theorem mem_dropLast_dateRange (d2 : NaiveDate) (h2 : d2.isValid) :
    ∀ (n : Nat) (d1 : NaiveDate), d1.isValid → gapFuel d1 d2 ≤ n →
      ∀ x : NaiveDate, x ∈ (dateRange d1 d2).dropLast ↔
        x.isValid ∧ d1.ble x = true ∧ x.blt d2 = true := by
  intro n
  induction n with
  | zero =>
    intro d1 h1 hf x
    unfold gapFuel at hf
    have hle2 : d1.ble d2 = false := by
      rw [← Bool.not_eq_true]
      intro hc
      have := toDays_le_of_ble d1 d2 h1 h2 hc
      omega
    rw [dateRange_nil _ _ hle2]
    simp only [List.dropLast_nil, List.not_mem_nil, false_iff]
    rintro ⟨hxv, hx1, hx2⟩
    have g1 := toDays_le_of_ble d1 x h1 hxv hx1
    have g2 := (blt_iff_toDays x d2 hxv h2).mp hx2
    omega
  | succ m ih =>
    intro d1 h1 hf x
    by_cases hle : d1.ble d2 = true
    · have hsv := isValid_succ d1 h1
      have hst := toDays_succ d1 h1
      have hd12 := toDays_le_of_ble d1 d2 h1 h2 hle
      rw [dateRange_cons d1 d2 h1 h2 hle]
      by_cases heq : d1 = d2
      · have hnil : dateRange d1.succ d2 = [] := by
          apply dateRange_nil
          rw [heq] at hsv hst ⊢
          rw [← Bool.not_eq_true]
          intro hc
          have := toDays_le_of_ble d2.succ d2 hsv h2 hc
          omega
        rw [hnil]
        simp only [List.dropLast_single, List.not_mem_nil, false_iff]
        rintro ⟨hxv, hx1, hx2⟩
        have g1 := toDays_le_of_ble d1 x h1 hxv hx1
        have g2 := (blt_iff_toDays x d2 hxv h2).mp hx2
        rw [heq] at g1
        omega
      · have hblt := blt_of_ble_ne d1 d2 hle heq
        have hcd := (blt_iff_toDays d1 d2 h1 h2).mp hblt
        have hsle : d1.succ.ble d2 = true := by
          rw [ble_iff_toDays _ _ hsv h2]
          omega
        have hfs : gapFuel d1.succ d2 ≤ m := by
          unfold gapFuel at *
          omega
        rw [dateRange_cons d1.succ d2 hsv h2 hsle, List.dropLast_cons₂,
          ← dateRange_cons d1.succ d2 hsv h2 hsle]
        simp only [List.mem_cons]
        rw [ih d1.succ hsv hfs x]
        constructor
        · rintro (rfl | ⟨hxv, hx1, hx2⟩)
          · exact ⟨h1, ble_refl x, hblt⟩
          · have := toDays_le_of_ble d1.succ x hsv hxv hx1
            refine ⟨hxv, ?_, hx2⟩
            rw [ble_iff_toDays d1 x h1 hxv]
            omega
        · rintro ⟨hxv, hx1, hx2⟩
          by_cases hxeq : x = d1
          · exact Or.inl hxeq
          · right
            refine ⟨hxv, ?_, hx2⟩
            have hlt := toDays_le_of_ble d1 x h1 hxv hx1
            have hne : d1.toDays ≠ x.toDays := fun hc => hxeq (toDays_inj x d1 hxv h1 hc.symm)
            rw [ble_iff_toDays d1.succ x hsv hxv]
            omega
    · have hle2 : d1.ble d2 = false := by
        rw [← Bool.not_eq_true]
        exact hle
      rw [dateRange_nil _ _ hle2]
      simp only [List.dropLast_nil, List.not_mem_nil, false_iff]
      rintro ⟨hxv, hx1, hx2⟩
      have g1 := toDays_le_of_ble d1 x h1 hxv hx1
      have g2 := (blt_iff_toDays x d2 hxv h2).mp hx2
      have g3 := (not_ble_iff_blt d1 d2).mp hle
      have g4 := (blt_iff_toDays d2 d1 h2 h1).mp g3
      omega

theorem batch_targets_skip (cur tod : NaiveDate) (hc : cur.isValid) (ht : tod.isValid)
    (hblt : cur.blt tod = true) (wo : Bool) (hq : (!wo || is_weekday cur) = false) :
    batch_targets cur tod wo = batch_targets cur.succ tod wo := by
  have hsv := isValid_succ cur hc
  have hst := toDays_succ cur hc
  have hcd := (blt_iff_toDays cur tod hc ht).mp hblt
  have hsle : cur.succ.ble tod = true := by
    rw [ble_iff_toDays _ _ hsv ht]
    omega
  unfold batch_targets
  rw [dateRange_cons cur tod hc ht (ble_of_blt _ _ hblt),
    dateRange_cons cur.succ tod hsv ht hsle, List.dropLast_cons₂,
    ← dateRange_cons cur.succ tod hsv ht hsle]
  simp [List.filter, hq]

theorem batch_targets_cons (cur tod : NaiveDate) (hc : cur.isValid) (ht : tod.isValid)
    (hblt : cur.blt tod = true) (wo : Bool) (hq : (!wo || is_weekday cur) = true) :
    batch_targets cur tod wo = cur :: batch_targets cur.succ tod wo := by
  have hsv := isValid_succ cur hc
  have hst := toDays_succ cur hc
  have hcd := (blt_iff_toDays cur tod hc ht).mp hblt
  have hsle : cur.succ.ble tod = true := by
    rw [ble_iff_toDays _ _ hsv ht]
    omega
  unfold batch_targets
  rw [dateRange_cons cur tod hc ht (ble_of_blt _ _ hblt),
    dateRange_cons cur.succ tod hsv ht hsle, List.dropLast_cons₂,
    ← dateRange_cons cur.succ tod hsv ht hsle]
  simp [List.filter, hq]

theorem batch_targets_self (tod : NaiveDate) (ht : tod.isValid) (wo : Bool) :
    batch_targets tod tod wo = [] := by
  unfold batch_targets
  rw [dateRange_cons tod tod ht ht (ble_refl tod),
    dateRange_nil _ _ (succ_not_ble_self tod ht)]
  rfl

theorem batch_add_aux_eq (ty : TimeLogEntryType) (wo : Bool) (tod : NaiveDate)
    (ht : tod.isValid) :
    ∀ (n : Nat) (cur : NaiveDate) (tl : TimeLogger), cur.isValid → cur.ble tod = true →
      (tod.toDays - cur.toDays).toNat < n →
      batch_add_aux ty wo n tl cur tod = .value (batch_ref ty tl (batch_targets cur tod wo)) := by
  intro n
  induction n with
  | zero => intro cur tl _ _ hf; omega
  | succ m ih =>
    intro cur tl hc hle hf
    by_cases hceq : cur = tod
    · subst hceq
      unfold batch_add_aux
      rw [blt_irrefl cur]
      rw [batch_targets_self cur hc wo]
      rfl
    · have hblt := blt_of_ble_ne cur tod hle hceq
      have hcd := (blt_iff_toDays cur tod hc ht).mp hblt
      have hsv := isValid_succ cur hc
      have hst := toDays_succ cur hc
      have hsle : cur.succ.ble tod = true := by
        rw [ble_iff_toDays _ _ hsv ht]
        omega
      unfold batch_add_aux
      rw [hblt]
      simp only [if_true]
      by_cases hskip : (wo && !is_weekday cur) = true
      · have hq : (!wo || is_weekday cur) = false := by
          simp only [Bool.and_eq_true, Bool.not_eq_true'] at hskip
          simp [hskip.1, hskip.2]
        rw [if_pos hskip]
        rw [ih cur.succ tl hsv hsle (by omega)]
        rw [batch_targets_skip cur tod hc ht hblt wo hq]
      · have hq : (!wo || is_weekday cur) = true := by
          cases hwo : wo with
          | false => simp
          | true =>
            cases hwk : is_weekday cur with
            | true => simp
            | false =>
              exfalso
              apply hskip
              rw [hwo, hwk]
              rfl
        rw [if_neg hskip]
        rw [batch_targets_cons cur tod hc ht hblt wo hq]
        unfold batch_ref
        cases hlook : date2logday tl cur with
        | some v => rfl
        | none =>
          exact ih cur.succ ((cur, TimeLogDay.full cur ty) :: tl) hsv hsle (by omega)

theorem batch_ref_success (ty : TimeLogEntryType) :
    ∀ (l : List NaiveDate) (tl : TimeLogger), (∀ x ∈ l, date2logday tl x = none) → l.Nodup →
      (batch_ref ty tl l).2 = .ok () ∧
      ∀ y : NaiveDate, date2logday (batch_ref ty tl l).1 y =
        (if y ∈ l then some (TimeLogDay.full y ty) else date2logday tl y) := by
  intro l
  induction l with
  | nil =>
    intro tl _ _
    exact ⟨rfl, fun y => by simp [batch_ref]⟩
  | cons d rest ih =>
    intro tl hnone hnd
    have hd : date2logday tl d = none := hnone d (by simp)
    have hdnr : d ∉ rest := (List.nodup_cons.mp hnd).1
    have hrest : ∀ x ∈ rest, date2logday ((d, TimeLogDay.full d ty) :: tl) x = none := by
      intro x hx
      have hxd : x ≠ d := fun hc => hdnr (hc ▸ hx)
      have hbeq : (x == d) = false := by simp [hxd]
      unfold date2logday
      rw [List.lookup_cons, hbeq]
      exact hnone x (by simp [hx])
    obtain ⟨hok, hlook⟩ := ih ((d, TimeLogDay.full d ty) :: tl) hrest (List.nodup_cons.mp hnd).2
    unfold batch_ref
    rw [hd]
    refine ⟨hok, ?_⟩
    intro y
    rw [hlook y]
    by_cases hyr : y ∈ rest
    · simp [hyr, List.mem_cons]
    · simp only [hyr, if_false, List.mem_cons]
      by_cases hyd : y = d
      · subst hyd
        simp only [true_or, if_true, hyr, false_or, if_pos rfl]
        unfold date2logday
        rw [List.lookup_cons]
        simp
      · have hbeq : (y == d) = false := by simp [hyd]
        simp only [hyd, false_or, hyr, if_false]
        unfold date2logday
        rw [List.lookup_cons, hbeq]

theorem batch_ref_failure (ty : TimeLogEntryType) :
    ∀ (pre : List NaiveDate) (c : NaiveDate) (post : List NaiveDate) (tl : TimeLogger),
      (∀ x ∈ pre, date2logday tl x = none) → date2logday tl c ≠ none →
      (pre ++ c :: post).Nodup →
      (batch_ref ty tl (pre ++ c :: post)).2 = .error .invalidInputError ∧
      ∀ y : NaiveDate, date2logday (batch_ref ty tl (pre ++ c :: post)).1 y =
        (if y ∈ pre then some (TimeLogDay.full y ty) else date2logday tl y) := by
  intro pre
  induction pre with
  | nil =>
    intro c post tl _ hc _
    cases hlook : date2logday tl c with
    | none => exact absurd hlook hc
    | some v =>
      constructor
      · show (batch_ref ty tl (c :: post)).2 = _
        unfold batch_ref
        rw [hlook]
      · intro y
        show date2logday (batch_ref ty tl (c :: post)).1 y = _
        unfold batch_ref
        rw [hlook]
        simp
  | cons d pre' ih =>
    intro c post tl hnone hc hnd
    have hd : date2logday tl d = none := hnone d (by simp)
    have hdn : d ∉ pre' ++ c :: post := by
      rw [List.cons_append, List.nodup_cons] at hnd
      exact hnd.1
    have hdc : d ≠ c := by
      intro hcon
      apply hdn
      rw [hcon]
      simp
    have hpre' : ∀ x ∈ pre', date2logday ((d, TimeLogDay.full d ty) :: tl) x = none := by
      intro x hx
      have hxd : x ≠ d := by
        intro hcon
        apply hdn
        rw [← hcon]
        simp [hx]
      have hbeq : (x == d) = false := by simp [hxd]
      unfold date2logday
      rw [List.lookup_cons, hbeq]
      exact hnone x (by simp [hx])
    have hc' : date2logday ((d, TimeLogDay.full d ty) :: tl) c ≠ none := by
      have hbeq : (c == d) = false := by simp [Ne.symm hdc]
      unfold date2logday
      rw [List.lookup_cons, hbeq]
      exact hc
    have hnd' : (pre' ++ c :: post).Nodup := by
      rw [List.cons_append, List.nodup_cons] at hnd
      exact hnd.2
    obtain ⟨herr, hlook⟩ := ih c post ((d, TimeLogDay.full d ty) :: tl) hpre' hc' hnd'
    show (batch_ref ty tl (d :: (pre' ++ c :: post))).2 = _ ∧ _
    constructor
    · unfold batch_ref
      rw [hd]
      exact herr
    · intro y
      show date2logday (batch_ref ty tl (d :: (pre' ++ c :: post))).1 y = _
      unfold batch_ref
      rw [hd]
      rw [hlook y]
      by_cases hyr : y ∈ pre'
      · simp [hyr, List.mem_cons]
      · simp only [hyr, if_false, List.mem_cons]
        by_cases hyd : y = d
        · subst hyd
          simp only [true_or, if_true]
          unfold date2logday
          rw [List.lookup_cons]
          simp
        · have hbeq : (y == d) = false := by simp [hyd]
          simp only [hyd, false_or, if_false]
          unfold date2logday
          rw [List.lookup_cons, hbeq]

/-- C8 counterexample: batch_add opens with assert!(from < to), which is
active in release builds, so an empty half-open range (from = to) panics
instead of inserting nothing and returning a result. -/
theorem batch_add_empty_range_counterexample :
    batch_add [] TimeLogEntryType.Work ⟨2024, 6, 3⟩ ⟨2024, 6, 3⟩ false = TLOutcome.panicked ∧
    batch_add [] TimeLogEntryType.Work ⟨2024, 6, 3⟩ ⟨2024, 6, 3⟩ false ≠
      TLOutcome.value ([], .ok ()) :=
  ⟨by decide, by decide⟩

/-- C8 (amended): for from < to (batch_add asserts this and panics
otherwise), batch_add inserts, for every targeted date of the half-open
range [from, to) - skipping Saturdays and Sundays when weekday_only - a
full-day Entry of the given type with neither start nor end, provided no
targeted date already has a Day record; if some targeted date already has
a Day record it returns an InvalidInput error and the targeted dates
earlier in the range that this call already inserted remain inserted (no
rollback). -/
theorem batch_add_spec (tl : TimeLogger) (ty : TimeLogEntryType) (a b : NaiveDate)
    (wo : Bool) (ha : a.isValid) (hb : b.isValid) (hab : a.blt b = true) :
    batch_add tl ty a b wo = .value (batch_ref ty tl (batch_targets a b wo)) ∧
    (∀ x : NaiveDate, x ∈ batch_targets a b wo ↔
      x.isValid ∧ a.ble x = true ∧ x.blt b = true ∧ (wo = true → is_weekday x = true)) ∧
    ((∀ x ∈ batch_targets a b wo, date2logday tl x = none) →
      ∃ tl2, batch_add tl ty a b wo = .value (tl2, .ok ()) ∧
        ∀ y : NaiveDate, date2logday tl2 y =
          (if y ∈ batch_targets a b wo then some (TimeLogDay.full y ty)
           else date2logday tl y)) ∧
    (∀ (pre : List NaiveDate) (c : NaiveDate) (post : List NaiveDate),
      batch_targets a b wo = pre ++ c :: post →
      (∀ x ∈ pre, date2logday tl x = none) → date2logday tl c ≠ none →
      ∃ tl2, batch_add tl ty a b wo = .value (tl2, .error .invalidInputError) ∧
        ∀ y : NaiveDate, date2logday tl2 y =
          (if y ∈ pre then some (TimeLogDay.full y ty) else date2logday tl y)) := by
  have hble := ble_of_blt a b hab
  have hcd := (blt_iff_toDays a b ha hb).mp hab
  have heq : batch_add tl ty a b wo = .value (batch_ref ty tl (batch_targets a b wo)) := by
    unfold batch_add
    rw [hab]
    simp only [if_true]
    apply batch_add_aux_eq ty wo b hb (gapFuel a b) a tl ha hble
    unfold gapFuel
    omega
  have hnodup : (batch_targets a b wo).Nodup := by
    have h1 : (dateRange a b).dropLast.Nodup :=
      ((dateRange a b).dropLast_sublist).nodup (dateRange_nodup a b ha hb)
    exact ((List.filter_sublist _).nodup h1)
  refine ⟨heq, ?_, ?_, ?_⟩
  · intro x
    unfold batch_targets
    rw [List.mem_filter]
    rw [mem_dropLast_dateRange b hb (gapFuel a b) a ha (le_refl _) x]
    constructor
    · rintro ⟨⟨hxv, hx1, hx2⟩, hq⟩
      refine ⟨hxv, hx1, hx2, ?_⟩
      intro hwo
      rw [hwo] at hq
      simpa using hq
    · rintro ⟨hxv, hx1, hx2, hq⟩
      refine ⟨⟨hxv, hx1, hx2⟩, ?_⟩
      cases hwo : wo with
      | false => simp
      | true => simp [hq hwo]
  · intro hnone
    obtain ⟨hok, hlook⟩ := batch_ref_success ty (batch_targets a b wo) tl hnone hnodup
    refine ⟨(batch_ref ty tl (batch_targets a b wo)).1, ?_, hlook⟩
    rw [heq, ← hok]
  · intro pre c post htar hnone hc
    have hnodup2 : (pre ++ c :: post).Nodup := by
      rw [← htar]
      exact hnodup
    obtain ⟨herr, hlook⟩ := batch_ref_failure ty pre c post tl hnone hc hnodup2
    refine ⟨(batch_ref ty tl (pre ++ c :: post)).1, ?_, hlook⟩
    rw [heq, htar, ← herr]

/-- Witness for batch_add_spec: the vacation batch of the spec scenario,
2024-06-03 up to 2024-06-10 with weekday_only set, on an empty ledger. -/
theorem batch_add_spec_witness :
    batch_add [] TimeLogEntryType.Vacation ⟨2024, 6, 3⟩ ⟨2024, 6, 10⟩ true =
      TLOutcome.value (batch_ref TimeLogEntryType.Vacation []
        (batch_targets ⟨2024, 6, 3⟩ ⟨2024, 6, 10⟩ true)) :=
  (batch_add_spec [] TimeLogEntryType.Vacation ⟨2024, 6, 3⟩ ⟨2024, 6, 10⟩ true
    (by decide) (by decide) (by decide)).1

/-- C5 counterexample: in a release build the with-variant week query
panics (HashMap index on a missing key) when the resolved adjustment date
has no Day record: here the ledger records only Wednesday 2017-12-20, and
the query for the week of Monday 2017-12-18 with a provisional end
panics. -/
theorem with_query_panic_counterexample :
    time_logged_in_week_of_with exampleLedgerWedOnly ⟨2017, 12, 18⟩ (some ⟨16, 0, 0⟩) =
      TLOutcome.panicked :=
  by decide

/-- C5 (amended): batch_add panics exactly when from < to fails (its
assert! is active in release builds); the with-variant period queries
return Ok or a typed TimeLogError except that, given a provisional time,
they panic exactly when the resolved adjustment date has no Day record;
with no provisional time they never panic; the time_left wrappers panic
exactly when the underlying logged query does. -/
theorem core_ops_panic_spec (tl : TimeLogger) (ty : TimeLogEntryType) (a b d : NaiveDate)
    (wo : Bool) (t : NaiveTime) (ha : a.isValid) (hb : b.isValid) (hd : d.isValid) :
    (batch_add tl ty a b wo = TLOutcome.panicked ↔ a.blt b = false) ∧
    time_logged_in_week_of_with tl d none ≠ TLOutcome.panicked ∧
    time_logged_in_month_of_with tl d none ≠ TLOutcome.panicked ∧
    (time_logged_in_week_of_with tl d (some t) = TLOutcome.panicked ↔
      date2logday tl (last_recorded_run_end tl (get_monday_in_week_of d)
        (get_sunday_in_week_of d)) = none) ∧
    (time_logged_in_month_of_with tl d (some t) = TLOutcome.panicked ↔
      date2logday tl (last_recorded_run_end tl (get_first_day_in_month_of d)
        (get_last_day_in_month_of d)) = none) ∧
    (time_left_in_week_of_with tl d (some t) = TLOutcome.panicked ↔
      time_logged_in_week_of_with tl d (some t) = TLOutcome.panicked) ∧
    (time_left_in_month_of_with tl d (some t) = TLOutcome.panicked ↔
      time_logged_in_month_of_with tl d (some t) = TLOutcome.panicked) := by
  have hweek := last_entries_resolved tl _ _ (get_monday_isValid d hd)
    (get_sunday_isValid d hd) (monday_ble_sunday d hd)
  have hmonth := last_entries_resolved tl _ _ (first_day_isValid d hd)
    (last_day_isValid d hd) (first_ble_last d hd)
  refine ⟨?_, ?_, ?_, ?_, ?_, ?_, ?_⟩
  · constructor
    · intro hp
      by_contra hc
      have hab : a.blt b = true := by
        cases hx : a.blt b
        · exact absurd hx hc
        · rfl
      have hble := ble_of_blt a b hab
      have hcd := (blt_iff_toDays a b ha hb).mp hab
      have heq : batch_add tl ty a b wo =
          .value (batch_ref ty tl (batch_targets a b wo)) := by
        unfold batch_add
        rw [hab]
        simp only [if_true]
        apply batch_add_aux_eq ty wo b hb (gapFuel a b) a tl ha hble
        unfold gapFuel
        omega
      rw [heq] at hp
      exact TLOutcome.noConfusion hp
    · intro hf
      unfold batch_add
      rw [hf]
      rfl
  · intro hc
    exact TLOutcome.noConfusion hc
  · intro hc
    exact TLOutcome.noConfusion hc
  · unfold time_logged_in_week_of_with time_logged_in_timeperiod_with
    rw [hweek]
    cases hlook : date2logday tl (last_recorded_run_end tl (get_monday_in_week_of d)
        (get_sunday_in_week_of d)) with
    | none => simp [hlook]
    | some tld =>
      cases h2 : tld.time_logged_with (some t) TimeLogEntryType.Work <;> simp [hlook, h2]
  · unfold time_logged_in_month_of_with time_logged_in_timeperiod_with
    rw [hmonth]
    cases hlook : date2logday tl (last_recorded_run_end tl (get_first_day_in_month_of d)
        (get_last_day_in_month_of d)) with
    | none => simp [hlook]
    | some tld =>
      cases h2 : tld.time_logged_with (some t) TimeLogEntryType.Work <;> simp [hlook, h2]
  · unfold time_left_in_week_of_with
    cases hq : time_logged_in_week_of_with tl d (some t) with
    | panicked => simp [hq]
    | value v => cases v <;> simp [hq]
  · unfold time_left_in_month_of_with
    cases hq : time_logged_in_month_of_with tl d (some t) with
    | panicked => simp [hq]
    | value v => cases v <;> simp [hq]

/-- Witness for core_ops_panic_spec: the batch_add clause at an empty
range on 2024-06-03. -/
theorem core_ops_panic_spec_witness :
    batch_add [] TimeLogEntryType.Work ⟨2024, 6, 3⟩ ⟨2024, 6, 4⟩ false = TLOutcome.panicked ↔
      (⟨2024, 6, 3⟩ : NaiveDate).blt ⟨2024, 6, 4⟩ = false :=
  (core_ops_panic_spec [] TimeLogEntryType.Work ⟨2024, 6, 3⟩ ⟨2024, 6, 4⟩ ⟨2024, 6, 3⟩
    false ⟨16, 0, 0⟩ (by decide) (by decide) (by decide)).1

theorem digit_props : ∀ k, k < 10 → ((digitChar k == '|') = false ∧
    (digitChar k == ' ') = false ∧ (digitChar k == ':') = false ∧
    (digitChar k == 'U') = false ∧ (digitChar k).isWhitespace = false ∧
    isDigitC (digitChar k) = true ∧ digitVal (digitChar k) = k) := by decide

theorem pad2_chars (n : Nat) (c : Char) (hc : c ∈ pad2 n) :
    ∃ k, k < 10 ∧ c = digitChar k := by
  simp only [pad2, List.mem_cons, List.not_mem_nil, or_false] at hc
  rcases hc with h | h
  · exact ⟨n / 10 % 10, Nat.mod_lt _ (by omega), h⟩
  · exact ⟨n % 10, Nat.mod_lt _ (by omega), h⟩

theorem pad4_chars (n : Nat) (c : Char) (hc : c ∈ pad4 n) :
    ∃ k, k < 10 ∧ c = digitChar k := by
  simp only [pad4, List.mem_cons, List.not_mem_nil, or_false] at hc
  rcases hc with h | h | h | h
  · exact ⟨n / 1000 % 10, Nat.mod_lt _ (by omega), h⟩
  · exact ⟨n / 100 % 10, Nat.mod_lt _ (by omega), h⟩
  · exact ⟨n / 10 % 10, Nat.mod_lt _ (by omega), h⟩
  · exact ⟨n % 10, Nat.mod_lt _ (by omega), h⟩

theorem abbrev_chars : ∀ (w : Weekday) (c : Char), c ∈ weekdayAbbrev w →
    ((c == '|') = false ∧ c.isWhitespace = false) := by
  intro w
  cases w <;> decide

theorem abbrev_ne_nil : ∀ w : Weekday, weekdayAbbrev w ≠ [] := by
  intro w
  cases w <;> decide

theorem typeName_chars : ∀ (ty : TimeLogEntryType) (c : Char), c ∈ typeName ty →
    ((c == '|') = false ∧ (c == ' ') = false ∧ c.isWhitespace = false) := by
  intro ty
  cases ty <;> decide

theorem undef_allchars : ∀ c ∈ undefChars,
    ((c == '|') = false ∧ (c == ' ') = false ∧ c.isWhitespace = false) := by decide

theorem renderTime_chars (t : NaiveTime) (c : Char) (hc : c ∈ renderTime t) :
    (c == '|') = false ∧ (c == ' ') = false ∧ (c == 'U') = false ∧
      c.isWhitespace = false := by
  simp only [renderTime, List.mem_append, List.mem_cons] at hc
  rcases hc with (h | h | h) | h | h
  · obtain ⟨k, hk, rfl⟩ := pad2_chars _ _ h
    obtain ⟨p1, p2, _, p4, p5, _, _⟩ := digit_props k hk
    exact ⟨p1, p2, p4, p5⟩
  · subst h; decide
  · obtain ⟨k, hk, rfl⟩ := pad2_chars _ _ h
    obtain ⟨p1, p2, _, p4, p5, _, _⟩ := digit_props k hk
    exact ⟨p1, p2, p4, p5⟩
  · subst h; decide
  · obtain ⟨k, hk, rfl⟩ := pad2_chars _ _ h
    obtain ⟨p1, p2, _, p4, p5, _, _⟩ := digit_props k hk
    exact ⟨p1, p2, p4, p5⟩

theorem timeField_chars (s : List Char) (h : timeFieldShape s) (c : Char) (hc : c ∈ s) :
    (c == '|') = false ∧ (c == ' ') = false ∧ c.isWhitespace = false := by
  rcases h with rfl | ⟨t, _, rfl⟩
  · exact undef_allchars c hc
  · obtain ⟨p1, p2, _, p4⟩ := renderTime_chars t c hc
    exact ⟨p1, p2, p4⟩

theorem timeField_ne_nil (s : List Char) (h : timeFieldShape s) : s ≠ [] := by
  rcases h with rfl | ⟨t, _, rfl⟩
  · decide
  · simp [renderTime, pad2]

theorem mem_of_headC {s : List Char} {c : Char} (h : s.head? = some c) : c ∈ s := by
  cases s with
  | nil => simp at h
  | cons a t =>
    simp only [List.head?_cons, Option.some.injEq] at h
    subst h
    simp

theorem mem_of_getLastC {s : List Char} {c : Char} (h : s.getLast? = some c) : c ∈ s := by
  rw [← List.head?_reverse] at h
  have := mem_of_headC h
  simpa [List.mem_reverse] using this

theorem getLast_cons_ne (a : Char) (t : List Char) (h : t ≠ []) :
    (a :: t).getLast? = t.getLast? := by
  cases t with
  | nil => exact absurd rfl h
  | cons b bs => exact List.getLast?_cons_cons

theorem getLast_append_right (l1 l2 : List Char) (h : l2 ≠ []) :
    (l1 ++ l2).getLast? = l2.getLast? := by
  induction l1 with
  | nil => rfl
  | cons a as ih =>
    have hne : as ++ l2 ≠ [] := by
      intro hx
      rw [List.append_eq_nil] at hx
      exact h hx.2
    rw [List.cons_append, getLast_cons_ne a (as ++ l2) hne, ih]

theorem dropWhile_white_append (pre t : List Char) (h : ∀ c ∈ pre, c.isWhitespace = true) :
    (pre ++ t).dropWhile Char.isWhitespace = t.dropWhile Char.isWhitespace := by
  induction pre with
  | nil => rfl
  | cons c cs ih =>
    rw [List.cons_append, List.dropWhile_cons, if_pos (h c (by simp))]
    exact ih (fun x hx => h x (by simp [hx]))

theorem dropWhile_white_nil (s : List Char) (h : ∀ c ∈ s, c.isWhitespace = true) :
    s.dropWhile Char.isWhitespace = [] := by
  induction s with
  | nil => rfl
  | cons c cs ih =>
    rw [List.dropWhile_cons, if_pos (h c (by simp))]
    exact ih (fun x hx => h x (by simp [hx]))

theorem dropWhile_nonwhite_head (s : List Char)
    (h : ∀ c, s.head? = some c → c.isWhitespace = false) :
    s.dropWhile Char.isWhitespace = s := by
  cases s with
  | nil => rfl
  | cons c cs => rw [List.dropWhile_cons, if_neg (by simp [h c rfl])]

theorem trimChars_wrap (pre s suf : List Char)
    (hpre : ∀ c ∈ pre, c.isWhitespace = true) (hsuf : ∀ c ∈ suf, c.isWhitespace = true)
    (h1 : ∀ c, s.head? = some c → c.isWhitespace = false)
    (h2 : ∀ c, s.getLast? = some c → c.isWhitespace = false) :
    trimChars (pre ++ s ++ suf) = s := by
  unfold trimChars
  rw [List.append_assoc, dropWhile_white_append pre (s ++ suf) hpre]
  cases s with
  | nil =>
    rw [List.nil_append, dropWhile_white_nil suf hsuf]
    rfl
  | cons a as =>
    have hh : ((a :: as) ++ suf).dropWhile Char.isWhitespace = (a :: as) ++ suf := by
      apply dropWhile_nonwhite_head
      intro c hc
      simp only [List.cons_append, List.head?_cons, Option.some.injEq] at hc
      subst hc
      exact h1 a rfl
    rw [hh, List.reverse_append,
      dropWhile_white_append suf.reverse (a :: as).reverse
        (fun c hc => hsuf c (List.mem_reverse.mp hc)),
      dropWhile_nonwhite_head (a :: as).reverse
        (fun c hc => h2 c (by rwa [List.head?_reverse] at hc)),
      List.reverse_reverse]

theorem splitOnChar_nosep (sep : Char) (s : List Char)
    (h : ∀ c ∈ s, (c == sep) = false) :
    splitOnChar sep s = [s] := by
  induction s with
  | nil => rfl
  | cons c cs ih =>
    show (if c == sep then [] :: splitOnChar sep cs
          else match splitOnChar sep cs with
               | [] => [[c]]
               | p :: ps => (c :: p) :: ps) = [c :: cs]
    rw [if_neg (by simp [h c (by simp)]), ih (fun x hx => h x (by simp [hx]))]

theorem splitOnChar_append (sep : Char) (xs t : List Char)
    (h : ∀ c ∈ xs, (c == sep) = false) :
    splitOnChar sep (xs ++ sep :: t) = xs :: splitOnChar sep t := by
  induction xs with
  | nil =>
    rw [List.nil_append]
    show (if sep == sep then [] :: splitOnChar sep t
          else match splitOnChar sep t with
               | [] => [[sep]]
               | p :: ps => (sep :: p) :: ps) = [] :: splitOnChar sep t
    rw [if_pos (by simp)]
  | cons c cs ih =>
    rw [List.cons_append]
    show (if c == sep then [] :: splitOnChar sep (cs ++ sep :: t)
          else match splitOnChar sep (cs ++ sep :: t) with
               | [] => [[c]]
               | p :: ps => (c :: p) :: ps) = (c :: cs) :: splitOnChar sep t
    rw [if_neg (by simp [h c (by simp)]), ih (fun x hx => h x (by simp [hx]))]

theorem parseNum_pad2 (n : Nat) (rest : List Char) (hn : n < 100) :
    parseNum 2 (pad2 n ++ rest) = some (n, rest) := by
  obtain ⟨_, _, _, _, _, hd1, hv1⟩ := digit_props (n / 10 % 10) (Nat.mod_lt _ (by omega))
  obtain ⟨_, _, _, _, _, hd2, hv2⟩ := digit_props (n % 10) (Nat.mod_lt _ (by omega))
  show (if isDigitC (digitChar (n / 10 % 10)) then
          some (scanNum 1 (digitVal (digitChar (n / 10 % 10)))
            (digitChar (n % 10) :: rest)) else none) = some (n, rest)
  rw [if_pos hd1, hv1]
  show some (if isDigitC (digitChar (n % 10)) then
              scanNum 0 (10 * (n / 10 % 10) + digitVal (digitChar (n % 10))) rest
             else (n / 10 % 10, digitChar (n % 10) :: rest)) = some (n, rest)
  rw [if_pos hd2, hv2]
  show some (10 * (n / 10 % 10) + n % 10, rest) = some (n, rest)
  have hval : 10 * (n / 10 % 10) + n % 10 = n := by omega
  rw [hval]

theorem parseNum_pad4 (n : Nat) (rest : List Char) (hn : n < 10000) :
    parseNum 4 (pad4 n ++ rest) = some (n, rest) := by
  obtain ⟨_, _, _, _, _, hd1, hv1⟩ := digit_props (n / 1000 % 10) (Nat.mod_lt _ (by omega))
  obtain ⟨_, _, _, _, _, hd2, hv2⟩ := digit_props (n / 100 % 10) (Nat.mod_lt _ (by omega))
  obtain ⟨_, _, _, _, _, hd3, hv3⟩ := digit_props (n / 10 % 10) (Nat.mod_lt _ (by omega))
  obtain ⟨_, _, _, _, _, hd4, hv4⟩ := digit_props (n % 10) (Nat.mod_lt _ (by omega))
  show (if isDigitC (digitChar (n / 1000 % 10)) then
          some (scanNum 3 (digitVal (digitChar (n / 1000 % 10)))
            (digitChar (n / 100 % 10) :: digitChar (n / 10 % 10) :: digitChar (n % 10)
              :: rest)) else none) = some (n, rest)
  rw [if_pos hd1, hv1]
  show some (if isDigitC (digitChar (n / 100 % 10)) then
              scanNum 2 (10 * (n / 1000 % 10) + digitVal (digitChar (n / 100 % 10)))
                (digitChar (n / 10 % 10) :: digitChar (n % 10) :: rest)
             else (n / 1000 % 10, digitChar (n / 100 % 10) :: digitChar (n / 10 % 10)
               :: digitChar (n % 10) :: rest)) = some (n, rest)
  rw [if_pos hd2, hv2]
  show some (if isDigitC (digitChar (n / 10 % 10)) then
              scanNum 1 (10 * (10 * (n / 1000 % 10) + n / 100 % 10) +
                digitVal (digitChar (n / 10 % 10))) (digitChar (n % 10) :: rest)
             else (10 * (n / 1000 % 10) + n / 100 % 10, digitChar (n / 10 % 10)
               :: digitChar (n % 10) :: rest)) = some (n, rest)
  rw [if_pos hd3, hv3]
  show some (if isDigitC (digitChar (n % 10)) then
              scanNum 0 (10 * (10 * (10 * (n / 1000 % 10) + n / 100 % 10) + n / 10 % 10) +
                digitVal (digitChar (n % 10))) rest
             else (10 * (10 * (n / 1000 % 10) + n / 100 % 10) + n / 10 % 10,
               digitChar (n % 10) :: rest)) = some (n, rest)
  rw [if_pos hd4, hv4]
  show some (10 * (10 * (10 * (n / 1000 % 10) + n / 100 % 10) + n / 10 % 10) + n % 10,
    rest) = some (n, rest)
  have hval : 10 * (10 * (10 * (n / 1000 % 10) + n / 100 % 10) + n / 10 % 10) + n % 10
      = n := by omega
  rw [hval]

theorem expectChar_cons (c : Char) (r : List Char) : expectChar c (c :: r) = some r := by
  show (if c == c then some r else none) = some r
  rw [if_pos (by simp)]

theorem weekdayFromAbbrev_abbrev : ∀ w, weekdayFromAbbrev (weekdayAbbrev w) = some w := by
  intro w
  cases w <;> decide

theorem parseDateFmt_render (dt : NaiveDate) (hdv : dt.isValid) (hy0 : 0 ≤ dt.year)
    (hy9 : dt.year ≤ 9999) :
    parseDateFmt (pad4 dt.year.toNat ++ ('/' :: (pad2 dt.month ++ ('/' :: (pad2 dt.day ++
      (' ' :: weekdayAbbrev dt.weekday)))))) = some dt := by
  obtain ⟨yy, mm, dd⟩ := dt
  have hy0' : (0 : Int) ≤ yy := hy0
  have hy9' : yy ≤ 9999 := hy9
  have hm12 : mm ≤ 12 := hdv.2.1
  have hdd : dd ≤ daysInMonth yy mm := hdv.2.2.2
  have h31 := daysInMonth_le_31 yy mm
  show parseDateFmt (pad4 yy.toNat ++ ('/' :: (pad2 mm ++ ('/' :: (pad2 dd ++
    (' ' :: weekdayAbbrev (⟨yy, mm, dd⟩ : NaiveDate).weekday)))))) = some ⟨yy, mm, dd⟩
  unfold parseDateFmt
  rw [parseNum_pad4 yy.toNat _ (by omega)]
  simp only [Option.bind]
  rw [expectChar_cons]
  simp only [Option.bind]
  rw [parseNum_pad2 mm _ (by omega)]
  simp only [Option.bind]
  rw [expectChar_cons]
  simp only [Option.bind]
  rw [parseNum_pad2 dd _ (by omega)]
  simp only [Option.bind]
  rw [expectChar_cons]
  simp only [Option.bind]
  rw [weekdayFromAbbrev_abbrev]
  simp only [Option.bind]
  rw [Int.toNat_of_nonneg hy0']
  rw [if_pos ⟨hdv, rfl⟩]

theorem parseTimeChars_render (t : NaiveTime) (ht : t.isValid) :
    parseTimeChars (renderTime t) = some t := by
  obtain ⟨hh, mm, ss⟩ := t
  obtain ⟨h1, h2, h3⟩ := ht
  have h1' : hh < 24 := h1
  have h2' : mm < 60 := h2
  have h3' : ss < 60 := h3
  show parseTimeChars (pad2 hh ++ (':' :: (pad2 mm ++ (':' :: pad2 ss)))) = some ⟨hh, mm, ss⟩
  unfold parseTimeChars
  rw [parseNum_pad2 hh _ (by omega)]
  simp only [Option.bind]
  rw [expectChar_cons]
  simp only [Option.bind]
  rw [parseNum_pad2 mm _ (by omega)]
  simp only [Option.bind]
  rw [expectChar_cons]
  simp only [Option.bind]
  rw [← List.append_nil (pad2 ss), parseNum_pad2 ss [] (by omega)]
  dsimp only
  rw [if_pos ⟨rfl, h1', h2', h3'⟩]

theorem containsUNDEF_of_noU (s : List Char) (h : ∀ c ∈ s, ¬ c = 'U') :
    containsUNDEF s = false := by
  induction s with
  | nil => rfl
  | cons c rest ih =>
    show (leadsWith undefChars (c :: rest) || containsUNDEF rest) = false
    rw [Bool.or_eq_false_iff]
    constructor
    · show (('U' == c) && leadsWith ['N', 'D', 'E', 'F'] rest) = false
      have hcu : ('U' == c) = false := by
        simp only [beq_eq_false_iff_ne]
        exact fun he => h c (by simp) he.symm
      rw [hcu, Bool.false_and]
    · exact ih (fun x hx => h x (by simp [hx]))

theorem renderTime_noU (t : NaiveTime) : containsUNDEF (renderTime t) = false :=
  containsUNDEF_of_noU _ (fun c hc =>
    beq_eq_false_iff_ne.mp (renderTime_chars t c hc).2.2.1)

theorem try_get_renderTime (t : NaiveTime) (ht : t.isValid) :
    try_get_naivetime (renderTime t) = some t := by
  unfold try_get_naivetime
  rw [renderTime_noU t, if_neg (by simp)]
  exact parseTimeChars_render t ht

theorem try_get_undef : try_get_naivetime undefChars = none := by decide

theorem try_get_opt_str (o : Option NaiveTime) (ho : optTimeValid o) :
    try_get_naivetime (opt_naivetime_to_str o) = o := by
  cases o with
  | none => exact try_get_undef
  | some t => exact try_get_renderTime t ho

theorem opt_str_try (s : List Char) (h : timeFieldShape s) :
    opt_naivetime_to_str (try_get_naivetime s) = s := by
  rcases h with rfl | ⟨t, ht, rfl⟩
  · rw [try_get_undef]
    rfl
  · rw [try_get_renderTime t ht]
    rfl

theorem entryTypeFromChars_typeName :
    ∀ ty, entryTypeFromChars (typeName ty) = Except.ok ty := by
  intro ty
  cases ty <;> decide

theorem typeName_trim (ty : TimeLogEntryType) : trimChars (typeName ty) = typeName ty := by
  have h := trimChars_wrap [] (typeName ty) [] (by simp) (by simp)
    (fun c hc => (typeName_chars ty c (mem_of_headC hc)).2.2)
    (fun c hc => (typeName_chars ty c (mem_of_getLastC hc)).2.2)
  simpa using h

theorem timeField_trim (s : List Char) (h : timeFieldShape s) : trimChars s = s := by
  have ht := trimChars_wrap [] s [] (by simp) (by simp)
    (fun c hc => (timeField_chars s h c (mem_of_headC hc)).2.2)
    (fun c hc => (timeField_chars s h c (mem_of_getLastC hc)).2.2)
  simpa using ht

theorem trim_dateLine (y m d : Nat) (w : Weekday) :
    trimChars (pad4 y ++ ('/' :: (pad2 m ++ ('/' :: (pad2 d ++
        (' ' :: (weekdayAbbrev w ++ [' '])))))))
      = pad4 y ++ ('/' :: (pad2 m ++ ('/' :: (pad2 d ++ (' ' :: weekdayAbbrev w))))) := by
  have h1 : ∀ c, (pad4 y ++ ('/' :: (pad2 m ++ ('/' :: (pad2 d ++
      (' ' :: weekdayAbbrev w)))))).head? = some c → c.isWhitespace = false := by
    intro c hc
    simp only [pad4, List.cons_append, List.head?_cons, Option.some.injEq] at hc
    subst hc
    exact (digit_props _ (Nat.mod_lt _ (by omega))).2.2.2.2.1
  have e1 : (pad4 y ++ ('/' :: (pad2 m ++ ('/' :: (pad2 d ++
      (' ' :: weekdayAbbrev w)))))).getLast? = (weekdayAbbrev w).getLast? := by
    rw [getLast_append_right (pad4 y)
          ('/' :: (pad2 m ++ ('/' :: (pad2 d ++ (' ' :: weekdayAbbrev w))))) (by simp)]
    rw [getLast_cons_ne '/' (pad2 m ++ ('/' :: (pad2 d ++ (' ' :: weekdayAbbrev w))))
          (by simp [pad2])]
    rw [getLast_append_right (pad2 m) ('/' :: (pad2 d ++ (' ' :: weekdayAbbrev w)))
          (by simp)]
    rw [getLast_cons_ne '/' (pad2 d ++ (' ' :: weekdayAbbrev w)) (by simp [pad2])]
    rw [getLast_append_right (pad2 d) (' ' :: weekdayAbbrev w) (by simp)]
    rw [getLast_cons_ne ' ' (weekdayAbbrev w) (abbrev_ne_nil w)]
  have h2 : ∀ c, (pad4 y ++ ('/' :: (pad2 m ++ ('/' :: (pad2 d ++
      (' ' :: weekdayAbbrev w)))))).getLast? = some c → c.isWhitespace = false := by
    intro c hc
    rw [e1] at hc
    exact (abbrev_chars w c (mem_of_getLastC hc)).2
  have h := trimChars_wrap []
    (pad4 y ++ ('/' :: (pad2 m ++ ('/' :: (pad2 d ++ (' ' :: weekdayAbbrev w)))))) [' ']
    (by simp) (by intro c hc; simp only [List.mem_singleton] at hc; subst hc; decide)
    h1 h2
  have harg : pad4 y ++ ('/' :: (pad2 m ++ ('/' :: (pad2 d ++
      (' ' :: (weekdayAbbrev w ++ [' '])))))) =
      (pad4 y ++ ('/' :: (pad2 m ++ ('/' :: (pad2 d ++
        (' ' :: weekdayAbbrev w)))))) ++ [' '] := by
    simp
  rw [harg]
  simpa using h

theorem trim_midLine (ty : TimeLogEntryType) (sf ef : List Char)
    (hef : timeFieldShape ef) :
    trimChars (' ' :: (typeName ty ++ (' ' :: (sf ++ (' ' :: ef)))))
      = typeName ty ++ (' ' :: (sf ++ (' ' :: ef))) := by
  have h1 : ∀ c, (typeName ty ++ (' ' :: (sf ++ (' ' :: ef)))).head? = some c →
      c.isWhitespace = false := by
    intro c hc
    cases ty <;>
      (simp only [typeName, List.cons_append, List.head?_cons, Option.some.injEq] at hc
       subst hc
       decide)
  have e1 : (typeName ty ++ (' ' :: (sf ++ (' ' :: ef)))).getLast? = ef.getLast? := by
    rw [getLast_append_right (typeName ty) (' ' :: (sf ++ (' ' :: ef))) (by simp)]
    rw [getLast_cons_ne ' ' (sf ++ (' ' :: ef)) (by simp)]
    rw [getLast_append_right sf (' ' :: ef) (by simp)]
    rw [getLast_cons_ne ' ' ef (timeField_ne_nil ef hef)]
  have h2 : ∀ c, (typeName ty ++ (' ' :: (sf ++ (' ' :: ef)))).getLast? = some c →
      c.isWhitespace = false := by
    intro c hc
    rw [e1] at hc
    exact (timeField_chars ef hef c (mem_of_getLastC hc)).2.2
  have h := trimChars_wrap [' '] (typeName ty ++ (' ' :: (sf ++ (' ' :: ef)))) []
    (by intro c hc; simp only [List.mem_singleton] at hc; subst hc; decide) (by simp)
    h1 h2
  simpa using h

theorem xs_nopipe (y m d : Nat) (w : Weekday) :
    ∀ c ∈ pad4 y ++ ('/' :: (pad2 m ++ ('/' :: (pad2 d ++
        (' ' :: (weekdayAbbrev w ++ [' '])))))), (c == '|') = false := by
  intro c hc
  simp only [List.mem_append, List.mem_cons, List.mem_singleton] at hc
  rcases hc with h | h | h | h | h | h | h | h | h <;>
    first
      | (subst h; decide)
      | (obtain ⟨k, hk, rfl⟩ := pad4_chars _ _ h
         exact (digit_props k hk).1)
      | (obtain ⟨k, hk, rfl⟩ := pad2_chars _ _ h
         exact (digit_props k hk).1)
      | exact (abbrev_chars w c h).1
      | exact absurd h (List.not_mem_nil c)

theorem ys_nopipe (ty : TimeLogEntryType) (sf ef : List Char)
    (hsf : timeFieldShape sf) (hef : timeFieldShape ef) :
    ∀ c ∈ (' ' :: (typeName ty ++ (' ' :: (sf ++ (' ' :: ef))))), (c == '|') = false := by
  intro c hc
  simp only [List.mem_cons, List.mem_append] at hc
  rcases hc with h | h | h | h | h | h <;>
    first
      | (subst h; decide)
      | exact (typeName_chars ty c h).1
      | exact (timeField_chars sf hsf c h).1
      | exact (timeField_chars ef hef c h).1

theorem entryFromChars_line (dt : NaiveDate) (ty : TimeLogEntryType) (sf ef : List Char)
    (hdv : dt.isValid) (hy0 : 0 ≤ dt.year) (hy9 : dt.year ≤ 9999)
    (hsf : timeFieldShape sf) (hef : timeFieldShape ef) :
    entryFromChars (pad4 dt.year.toNat ++ '/' :: pad2 dt.month ++ '/' :: pad2 dt.day ++
      ' ' :: weekdayAbbrev dt.weekday ++ ' ' :: '|' :: ' ' ::
      (typeName ty ++ ' ' :: sf ++ ' ' :: ef)) =
    Except.ok ⟨try_get_naivetime sf, try_get_naivetime ef, ty, dt⟩ := by
  have hline : pad4 dt.year.toNat ++ '/' :: pad2 dt.month ++ '/' :: pad2 dt.day ++
      ' ' :: weekdayAbbrev dt.weekday ++ ' ' :: '|' :: ' ' ::
      (typeName ty ++ ' ' :: sf ++ ' ' :: ef)
      = (pad4 dt.year.toNat ++ ('/' :: (pad2 dt.month ++ ('/' :: (pad2 dt.day ++
          (' ' :: (weekdayAbbrev dt.weekday ++ [' ']))))))) ++ '|' ::
        (' ' :: (typeName ty ++ (' ' :: (sf ++ (' ' :: ef))))) := by
    simp
  rw [hline]
  unfold entryFromChars
  rw [splitOnChar_append '|'
        (pad4 dt.year.toNat ++ ('/' :: (pad2 dt.month ++ ('/' :: (pad2 dt.day ++
          (' ' :: (weekdayAbbrev dt.weekday ++ [' '])))))))
        (' ' :: (typeName ty ++ (' ' :: (sf ++ (' ' :: ef)))))
        (xs_nopipe dt.year.toNat dt.month dt.day dt.weekday),
      splitOnChar_nosep '|' (' ' :: (typeName ty ++ (' ' :: (sf ++ (' ' :: ef)))))
        (ys_nopipe ty sf ef hsf hef)]
  simp only [List.head?_cons, List.tail_cons, req, Except.bind]
  rw [trim_dateLine dt.year.toNat dt.month dt.day dt.weekday]
  rw [parseDateFmt_render dt hdv hy0 hy9]
  simp only [req, Except.bind]
  rw [trim_midLine ty sf ef hef]
  rw [splitOnChar_append ' ' (typeName ty) (sf ++ (' ' :: ef))
        (fun c h => (typeName_chars ty c h).2.1),
      splitOnChar_append ' ' sf ef (fun c h => (timeField_chars sf hsf c h).2.1),
      splitOnChar_nosep ' ' ef (fun c h => (timeField_chars ef hef c h).2.1)]
  simp only [List.head?_cons, List.tail_cons, req, Except.bind]
  rw [typeName_trim ty, entryTypeFromChars_typeName ty]
  simp only [Except.bind]
  rw [timeField_trim sf hsf, timeField_trim ef hef]

theorem entryFromChars_serializeEntry (e : TimeLogEntry) (he : validEntry e) :
    entryFromChars (serializeEntry e) = Except.ok e := by
  obtain ⟨st, en, ty, dt⟩ := e
  obtain ⟨hdv, hy0, hy9, hsv, hev⟩ := he
  have hsf : timeFieldShape (opt_naivetime_to_str st) := by
    cases st with
    | none => exact Or.inl rfl
    | some t => exact Or.inr ⟨t, hsv, rfl⟩
  have hef : timeFieldShape (opt_naivetime_to_str en) := by
    cases en with
    | none => exact Or.inl rfl
    | some t => exact Or.inr ⟨t, hev, rfl⟩
  have h := entryFromChars_line dt ty _ _ hdv hy0 hy9 hsf hef
  rw [try_get_opt_str st hsv, try_get_opt_str en hev] at h
  exact h

/-- C7: round-trip of the entry text format. For every valid Entry e,
parsing the serialized line yields exactly e again; and for every
well-formed entry line s (the grammar
"YYYY/MM/DD <weekday-abbrev> | <EntryType> <start-or-UNDEF> <end-or-UNDEF>"
with the weekday abbreviation derived from the date), parsing succeeds and
re-serializing reproduces s string-exactly, including the weekday
abbreviation. -/
theorem serialization_roundtrip_spec (e : TimeLogEntry) (s : List Char)
    (he : validEntry e) (hs : wellFormedLine s) :
    entryFromChars (serializeEntry e) = Except.ok e ∧
    ∃ e2 : TimeLogEntry, entryFromChars s = Except.ok e2 ∧ serializeEntry e2 = s := by
  constructor
  · exact entryFromChars_serializeEntry e he
  · obtain ⟨dt, ty, sf, ef, hdv, hy0, hy9, hsf, hef, rfl⟩ := hs
    refine ⟨⟨try_get_naivetime sf, try_get_naivetime ef, ty, dt⟩, ?_, ?_⟩
    · exact entryFromChars_line dt ty sf ef hdv hy0 hy9 hsf hef
    · show pad4 dt.year.toNat ++ '/' :: pad2 dt.month ++ '/' :: pad2 dt.day ++
        ' ' :: weekdayAbbrev dt.weekday ++ ' ' :: '|' :: ' ' ::
        (typeName ty ++ ' ' :: opt_naivetime_to_str (try_get_naivetime sf) ++
          ' ' :: opt_naivetime_to_str (try_get_naivetime ef)) = _
      rw [opt_str_try sf hsf, opt_str_try ef hef]

/-- Witness for serialization_roundtrip_spec: the entry
Work 08:00:00-UNDEF on Wednesday 2017-12-20, and the well-formed line
"2017/12/20 Wed | Vacation UNDEF UNDEF". -/
theorem serialization_roundtrip_spec_witness :
    entryFromChars (serializeEntry ⟨some ⟨8, 0, 0⟩, none, .Work, ⟨2017, 12, 20⟩⟩) =
      Except.ok ⟨some ⟨8, 0, 0⟩, none, .Work, ⟨2017, 12, 20⟩⟩ ∧
    ∃ e2 : TimeLogEntry,
      entryFromChars ['2', '0', '1', '7', '/', '1', '2', '/', '2', '0', ' ', 'W', 'e',
        'd', ' ', '|', ' ', 'V', 'a', 'c', 'a', 't', 'i', 'o', 'n', ' ', 'U', 'N', 'D',
        'E', 'F', ' ', 'U', 'N', 'D', 'E', 'F'] = Except.ok e2 ∧
      serializeEntry e2 = ['2', '0', '1', '7', '/', '1', '2', '/', '2', '0', ' ', 'W',
        'e', 'd', ' ', '|', ' ', 'V', 'a', 'c', 'a', 't', 'i', 'o', 'n', ' ', 'U', 'N',
        'D', 'E', 'F', ' ', 'U', 'N', 'D', 'E', 'F'] :=
  serialization_roundtrip_spec ⟨some ⟨8, 0, 0⟩, none, .Work, ⟨2017, 12, 20⟩⟩ _
    (by decide)
    ⟨⟨2017, 12, 20⟩, .Vacation, undefChars, undefChars, by decide, by decide, by decide,
      Or.inl rfl, Or.inl rfl, by decide⟩
